import Mathlib

/-! Deposit ingestion pipeline of `crypto_custody`.

A shallow embedding of `service/scan_service.go` (the Scanner: adaptive step
controller, log persistence, reorg detection and rollback) and of
`service/scan_processor.go` (the Processor: Transfer decoding and deposit
crediting) over an explicit relational store that follows
`model/scan_chain.go`.

Conventions of the embedding:

* a table is the list of its rows; `First` picks the matching row with the
  least primary key, `Create` appends a row whose primary key is taken from the
  table's sequence;
* every database call that the source checks for an error fails when `Faults`
  says so, so that the error branches of the source are present; a transaction
  that is rolled back gives back the database it started from;
* the chain client is a record of functions returning `Except.error` on an RPC
  error;
* `int64` values are `Int`, `uint64` values are `Nat` with explicit `% 2 ^ 64`
  where the source computes on them.
-/

namespace CryptoCustody

/-! ## Configuration (`scan_service.go`, `scan_processor.go`) -/

def CHAIN : String := "ethereum"
def CONFIRMATIONS : Nat := 12
def INITIAL_STEP : Nat := 200
def MIN_STEP : Nat := 10
def MAX_STEP : Nat := 2000
def SUCCESS_THRESHOLD : Int := 5
def FAILURE_THRESHOLD : Int := 1
def REORG_CHECK_DEPTH : Nat := 100
def PROCESS_CHAIN : String := "ethereum"
def BATCH_PROCESS_SIZE : Nat := 100

/-! ## Data model (`model/scan_chain.go`) -/

abbrev Byte := Fin 256

structure ProcessedBlock where
  ID : Nat
  Chain : String
  BlockNumber : Int
  BlockHash : String
  deriving DecidableEq, Repr

structure OnchainEvent where
  ID : Nat
  Chain : String
  BlockNumber : Int
  BlockHash : String
  TxHash : String
  LogIndex : Int
  Address : String
  Topics : String
  Data : List Byte
  Processed : Bool
  deriving DecidableEq, Repr

structure AddressPool where
  ID : Nat
  Chain : String
  Address : String
  UserID : Option Int
  Used : Bool
  deriving DecidableEq, Repr

structure Deposit where
  ID : Nat
  Chain : String
  Token : Option String
  ToAddress : String
  UserID : Option Int
  Amount : String
  TxHash : String
  BlockNumber : Int
  Confirmed : Bool
  deriving DecidableEq, Repr

/-- The database: the four tables of `AutoMigrate` and the sequences that give
out their primary keys. -/
structure Store where
  blocks : List ProcessedBlock
  events : List OnchainEvent
  pool : List AddressPool
  deposits : List Deposit
  blockSeq : Nat
  eventSeq : Nat
  depositSeq : Nat
  deriving DecidableEq, Repr

/-- A fresh database: empty tables, sequences at 1. -/
def Store.empty : Store :=
  { blocks := [], events := [], pool := [], deposits := []
    blockSeq := 1, eventSeq := 1, depositSeq := 1 }

/-! ## Errors and fault injection -/

abbrev Error := String

deriving instance DecidableEq for Except

/-- The database calls whose error result the source inspects. -/
inductive DbOp where
  | lastBlock      -- `First` in `lastProcessedBlock`
  | createBlock    -- `Create` in `persistProcessedBlock`
  | createEvent    -- `Create` in `persistLogs`
  | commitLogs     -- `Commit` in `persistLogs`
  | findBlocks     -- `Find` in `detectAndHandleReorg`
  | deleteBlocks   -- `Delete` in `rollbackToBlock`
  | reopenEvents   -- `Updates` in `rollbackToBlock`
  | rereadEvent    -- first `First` in `processEvent`
  | markEvent      -- `Update` in `markEventProcessedTx`
  | findPool       -- `First` on the address pool in `processEvent`
  | findDeposit    -- `First` on deposits in `processEvent`
  | createDeposit  -- `Create` in `processEvent`
  | savePool       -- `Save` in `processEvent`
  | commitEvent    -- the commit of `Transaction` in `processEvent`
  | fetchPending   -- `Find` in `fetchPendingEvents`
  deriving DecidableEq, Repr

/-- Which database calls fail with a database error. -/
abbrev Faults := DbOp → Bool

/-- A database that never fails. -/
def Faults.none : Faults := fun _ => false

/-- The row that `First` returns: among the rows satisfying `p`, the one with
the least primary key. -/
def firstBy {α : Type} (key : α → Nat) (p : α → Bool) : List α → Option α
  | [] => none
  | x :: xs =>
    match firstBy key p xs with
    | none => if p x then some x else none
    | some y => if p x && decide (key x ≤ key y) then some x else some y

/-! ## Chain client (`ethclient.Client`) -/

/-- A `common.Hash`: 32 bytes. -/
abbrev Hash := { l : List Byte // l.length = 32 }

/-- A `common.Address`: 20 bytes. -/
abbrev Address := { l : List Byte // l.length = 20 }

/-- The parts of `types.Header` that the scanner reads: `Number` and the text
`Hash().Hex()`. -/
structure Header where
  Number : Nat
  Hash : String
  deriving DecidableEq, Repr

/-- A `types.Log`. `BlockHash`, `TxHash` and `Address` hold the texts
`l.BlockHash.Hex()`, `l.TxHash.Hex()` and `l.Address.Hex()` that `persistLogs`
stores. -/
structure Log where
  BlockNumber : Nat
  BlockHash : String
  TxHash : String
  Index : Nat
  Address : String
  Topics : List Hash
  Data : List Byte
  deriving DecidableEq, Repr

/-- The RPC surface used by the scanner. `HeaderByNumber none` is the call with
a nil number (the head of the chain). -/
structure ChainClient where
  HeaderByNumber : Option Int → Except Error Header
  FilterLogs : Int → Int → Except Error (List Log)

/-! ## Integer conversions -/

/-- The conversion `uint64(x)` of an `int64`. -/
def uint64OfInt (x : Int) : Nat := (x % (2 ^ 64 : Int)).toNat

/-- The conversion `int64(n)` of a `uint64` (also `int(n)` of a `uint`). -/
def int64OfNat (n : Nat) : Int :=
  if n % 2 ^ 64 < 2 ^ 63 then ((n % 2 ^ 64 : Nat) : Int) else ((n % 2 ^ 64 : Nat) : Int) - 2 ^ 64

/-! ## Hex text and the JSON form of topics -/

def hexDigit (n : Nat) : Char :=
  if n < 10 then Char.ofNat (48 + n) else Char.ofNat (87 + n)

/-- Lowercase hex digits of a byte string, two per byte. -/
def hexChars : List Byte → List Char
  | [] => []
  | b :: bs => hexDigit (b.val / 16) :: hexDigit (b.val % 16) :: hexChars bs

/-- The text of `Hash.Hex()`, and of `strings.ToLower(Address.Hex())`: `0x`
followed by the lowercase hex digits. (`Address.Hex()` itself is the EIP-55
mixed-case text, which lowercases to this.) -/
def lowerHex (bs : List Byte) : String := String.mk ('0' :: 'x' :: hexChars bs)

/-- The value of a hex digit, in either case (`decodeNibble`). -/
def decodeNibble (c : Char) : Option Nat :=
  if '0' ≤ c ∧ c ≤ '9' then some (c.toNat - 48)
  else if 'a' ≤ c ∧ c ≤ 'f' then some (c.toNat - 87)
  else if 'A' ≤ c ∧ c ≤ 'F' then some (c.toNat - 55)
  else none

def decodeHex : List Char → Option (List Byte)
  | [] => some []
  | [_] => none
  | a :: b :: cs =>
    match decodeNibble a, decodeNibble b, decodeHex cs with
    | some x, some y, some rest => some (Fin.ofNat (x * 16 + y) :: rest)
    | _, _, _ => none

/-- The decoding `Hash.UnmarshalJSON` of the text between the quotes of a JSON
string: a `0x` or `0X` prefix and exactly 64 hex digits. -/
def hashOfText : List Char → Option Hash
  | '0' :: p :: cs =>
    if (p = 'x' ∨ p = 'X') ∧ cs.length = 64 then
      match decodeHex cs with
      | some bs => if h : bs.length = 32 then some ⟨bs, h⟩ else none
      | none => none
    else none
  | _ => none

def isJsonSpace (c : Char) : Bool := c == ' ' || c == '\t' || c == '\n' || c == '\r'

/-- Where the decoder stands in the text of a JSON array of strings. -/
inductive JsonPos where
  | value              -- before the top-level value
  | afterOpen          -- after `[`
  | inString (acc : List Char)  -- inside a string, `acc` read so far (reversed)
  | afterElement       -- after a string
  | afterComma         -- after `,`
  | done               -- after the value
  deriving DecidableEq, Repr

/-- The decoder of `json.Unmarshal` into a `[]common.Hash`, reading the text
left to right: `null` or an array of strings, each decoded by `hashOfText`,
with JSON white space between the tokens. `out` holds the hashes read so far,
newest first. -/
def scanTopics : JsonPos → List Hash → List Char → Option (List Hash)
  | .value, _, [] => none
  | .value, out, c :: cs =>
    if isJsonSpace c then scanTopics .value out cs
    else if c = '[' then scanTopics .afterOpen out cs
    else if c = 'n' then
      match cs with
      | 'u' :: 'l' :: 'l' :: rest => if rest.all isJsonSpace then some [] else none
      | _ => none
    else none
  | .afterOpen, _, [] => none
  | .afterOpen, out, c :: cs =>
    if isJsonSpace c then scanTopics .afterOpen out cs
    else if c = ']' then scanTopics .done out cs
    else if c = '"' then scanTopics (.inString []) out cs
    else none
  | .inString _, _, [] => none
  | .inString acc, out, c :: cs =>
    if c = '"' then
      match hashOfText acc.reverse with
      | some h => scanTopics .afterElement (h :: out) cs
      | none => none
    else scanTopics (.inString (c :: acc)) out cs
  | .afterElement, _, [] => none
  | .afterElement, out, c :: cs =>
    if isJsonSpace c then scanTopics .afterElement out cs
    else if c = ',' then scanTopics .afterComma out cs
    else if c = ']' then scanTopics .done out cs
    else none
  | .afterComma, _, [] => none
  | .afterComma, out, c :: cs =>
    if isJsonSpace c then scanTopics .afterComma out cs
    else if c = '"' then scanTopics (.inString []) out cs
    else none
  | .done, out, [] => some out.reverse
  | .done, out, c :: cs => if isJsonSpace c then scanTopics .done out cs else none

/-- The result of `json.Unmarshal([]byte(text), &topics)`; `none` is an error. -/
def unmarshalTopics (text : String) : Option (List Hash) :=
  scanTopics .value [] text.data

def marshalElements : List Hash → List Char
  | [] => []
  | [h] => '"' :: (lowerHex h.val).data ++ ['"']
  | h :: hs => '"' :: (lowerHex h.val).data ++ '"' :: ',' :: marshalElements hs

/-- The text of `json.Marshal(l.Topics)`: the hashes as quoted `0x` hex strings
in an array. -/
def marshalTopics (ts : List Hash) : String :=
  String.mk ('[' :: marshalElements ts ++ [']'])

/-! ## Scanner persistence (`scan_service.go`) -/

/-- The block number returned by `lastProcessedBlock`: that of the row first in
`block_number desc` order, 0 when the table is empty. -/
def lastProcessedBlock (f : Faults) (db : Store) : Except Error Int :=
  if f .lastBlock then .error "db: first processed block" else
  match db.blocks with
  | [] => .ok 0
  | b :: bs => .ok (bs.foldl (fun m r => max m r.BlockNumber) b.BlockNumber)

/-- The insert of `persistProcessedBlock`. The unique index `idx_chain_block`
on `(chain, block_number)` rejects a second row for the same block. -/
def persistProcessedBlock (f : Faults) (db : Store) (block : Int) (hash : String) :
    Store × Option Error :=
  if f .createBlock then (db, some "db: create processed block")
  else if db.blocks.any (fun r => r.Chain == CHAIN && r.BlockNumber == block) then
    (db, some "db: duplicate key idx_chain_block")
  else
    ({ db with
        blocks := db.blocks ++
          [{ ID := db.blockSeq, Chain := CHAIN, BlockNumber := block, BlockHash := hash }]
        blockSeq := db.blockSeq + 1 }, none)

/-- The row that `persistLogs` builds from a log. -/
def eventOfLog (id : Nat) (l : Log) : OnchainEvent :=
  { ID := id
    Chain := CHAIN
    BlockNumber := int64OfNat l.BlockNumber
    BlockHash := l.BlockHash
    TxHash := l.TxHash
    LogIndex := int64OfNat l.Index
    Address := l.Address
    Topics := marshalTopics l.Topics
    Data := l.Data
    Processed := false }

/-- The loop of `persistLogs` inside its transaction: one `Create` per log,
stopping at the first error. The index `idx_event_unique` of `OnchainEvent` is
declared without the `unique` option, so the table itself accepts any row; a
`Create` fails only when the database reports an error. -/
def persistLogsLoop (f : Faults) (tx : Store) : List Log → Except Error Store
  | [] => .ok tx
  | l :: ls =>
    if f .createEvent then .error "db: create onchain event"
    else
      persistLogsLoop f
        { tx with events := tx.events ++ [eventOfLog tx.eventSeq l], eventSeq := tx.eventSeq + 1 } ls

/-- `Scanner.persistLogs`: on a `Create` error the transaction is rolled back
and the error returned; otherwise the transaction is committed. -/
def persistLogs (f : Faults) (db : Store) (logs : List Log) : Store × Option Error :=
  match persistLogsLoop f db logs with
  | .error e => (db, some e)
  | .ok tx => if f .commitLogs then (db, some "db: commit") else (tx, none)

/-- `Scanner.rollbackToBlock`: two statements, not wrapped in a transaction. -/
def rollbackToBlock (f : Faults) (db : Store) (blockNumber : Int) : Store × Option Error :=
  if f .deleteBlocks then (db, some "db: delete processed blocks") else
  let db := { db with
    blocks := db.blocks.filter (fun r => !(r.Chain == CHAIN && decide (r.BlockNumber > blockNumber))) }
  if f .reopenEvents then (db, some "db: update onchain events") else
  let db := { db with
    events := db.events.map (fun e =>
      if e.Chain == CHAIN && decide (e.BlockNumber > blockNumber) then { e with Processed := false }
      else e) }
  (db, none)

/-- The rows loaded by `detectAndHandleReorg`: those of this chain, newest
first, at most `REORG_CHECK_DEPTH` of them. -/
def recentBlocks (db : Store) : List ProcessedBlock :=
  ((db.blocks.filter (fun r => r.Chain == CHAIN)).insertionSort
    (fun a b => a.BlockNumber ≥ b.BlockNumber)).take REORG_CHECK_DEPTH

/-- The `for` loop of `detectAndHandleReorg` over the loaded rows. -/
def reorgLoop (f : Faults) (c : ChainClient) (db : Store) :
    List ProcessedBlock → Store × Option Error
  | [] => (db, none)
  | pb :: pbs =>
    match c.HeaderByNumber (some pb.BlockNumber) with
    | .error _ => reorgLoop f c db pbs
    | .ok header =>
      if header.Hash ≠ pb.BlockHash then
        rollbackToBlock f db (pb.BlockNumber - 1)
      else reorgLoop f c db pbs

def detectAndHandleReorg (f : Faults) (c : ChainClient) (db : Store) : Store × Option Error :=
  if f .findBlocks then (db, some "db: find processed blocks") else
  let pbs := recentBlocks db
  if pbs.length = 0 then (db, none) else reorgLoop f c db pbs

def minUint64 (a b : Nat) : Nat := if a < b then a else b

/-! ## Step controller (`Scanner.adjustStepOnSuccess` / `adjustStepOnFailure`) -/

/-- The fields of `Scanner` other than the client handle and the mutex. -/
structure Scanner where
  db : Store
  step : Nat
  successCount : Int
  failureCount : Int
  deriving DecidableEq, Repr

/-- The scanner built by `NewScanner` over a database. -/
def NewScanner (db : Store) : Scanner :=
  { db := db, step := INITIAL_STEP, successCount := 0, failureCount := 0 }

/-- The value of `uint64(float64(step) * 1.5)`. For `step < 2 ^ 52` the
conversion and the product are exact in `float64`, so this is the integer
part of three halves of `step`. -/
def growStep (step : Nat) : Nat := step * 3 / 2

/-- The value of `uint64(float64(step) * 0.5)`, exact for `step < 2 ^ 53`. -/
def shrinkStep (step : Nat) : Nat := step / 2

def adjustStepOnSuccess (s : Scanner) : Scanner :=
  let s := { s with successCount := s.successCount + 1 }
  let s := { s with failureCount := 0 }
  if s.successCount ≥ SUCCESS_THRESHOLD then
    let newStep := growStep s.step
    let newStep := if newStep > MAX_STEP then MAX_STEP else newStep
    let s := if newStep > s.step then { s with step := newStep } else s
    { s with successCount := 0 }
  else s

def adjustStepOnFailure (s : Scanner) : Scanner :=
  let s := { s with failureCount := s.failureCount + 1 }
  let s := { s with successCount := 0 }
  if s.failureCount ≥ FAILURE_THRESHOLD then
    let newStep := shrinkStep s.step
    let newStep := if newStep < MIN_STEP then MIN_STEP else newStep
    let s := if newStep < s.step then { s with step := newStep } else s
    { s with failureCount := 0 }
  else s

/-- One notification to the step controller. -/
inductive Notice where
  | success
  | failure
  deriving DecidableEq, Repr

def Scanner.notify (s : Scanner) : Notice → Scanner
  | .success => adjustStepOnSuccess s
  | .failure => adjustStepOnFailure s

/-- The controller after a sequence of notifications, oldest first. -/
def Scanner.notifyAll (s : Scanner) (ns : List Notice) : Scanner :=
  ns.foldl Scanner.notify s

/-- The scanner states that the program can be in: the one built by
`NewScanner`, and what the controller notifications and the database writes of
a tick make of such a state. -/
inductive Reachable : Scanner → Prop where
  | init (db : Store) : Reachable (NewScanner db)
  | success {s : Scanner} : Reachable s → Reachable (adjustStepOnSuccess s)
  | failure {s : Scanner} : Reachable s → Reachable (adjustStepOnFailure s)
  | store {s : Scanner} (db : Store) : Reachable s → Reachable { s with db := db }

/-! ## Scanner tick (`Scanner.stepOnce`) -/

def stepOnce (f : Faults) (c : ChainClient) (s : Scanner) : Scanner × Option Error :=
  match c.HeaderByNumber none with
  | .error e => (adjustStepOnFailure s, some e)
  | .ok header =>
    let latest := header.Number % 2 ^ 64
    if latest ≤ CONFIRMATIONS then (s, none) else
    let safe := latest - CONFIRMATIONS
    match lastProcessedBlock f s.db with
    | .error e => (adjustStepOnFailure s, some e)
    | .ok last =>
      let start := uint64OfInt (last + 1)
      if start > safe then (s, none) else
      let step := s.step
      let endBlock := minUint64 ((start + step + (2 ^ 64 - 1)) % 2 ^ 64) safe
      match c.FilterLogs (int64OfNat start) (int64OfNat endBlock) with
      | .error e => (adjustStepOnFailure s, some e)
      | .ok logs =>
        match (if logs.length > 0 then persistLogs f s.db logs else (s.db, none)) with
        | (db1, some e) => (adjustStepOnFailure { s with db := db1 }, some e)
        | (db1, none) =>
          match c.HeaderByNumber (some (int64OfNat endBlock)) with
          | .error _ => (adjustStepOnSuccess { s with db := db1 }, none)
          | .ok h =>
            match persistProcessedBlock f db1 (int64OfNat endBlock) h.Hash with
            | (db2, some e) => (adjustStepOnFailure { s with db := db2 }, some e)
            | (db2, none) => (adjustStepOnSuccess { s with db := db2 }, none)

/-- The value `safe` that `stepOnce` computes from the head number:
`latest - CONFIRMATIONS` with `latest = header.Number.Uint64()`. -/
def safeBlock (head : Nat) : Nat := head % 2 ^ 64 - CONFIRMATIONS

/-- The value `start` that `stepOnce` computes: `uint64(last + 1)`. -/
def rangeStart (last : Int) : Nat := uint64OfInt (last + 1)

/-- The value `end` that `stepOnce` computes: `minUint64(start+step-1, safe)`, the
sum taken in `uint64`. -/
def rangeEnd (head : Nat) (last : Int) (step : Nat) : Nat :=
  minUint64 ((rangeStart last + step + (2 ^ 64 - 1)) % 2 ^ 64) (safeBlock head)

/-! ## Event decoder (`Processor.parseTransfer`) -/

/-- The value of `crypto.Keccak256Hash([]byte("Transfer(address,address,uint256)"))`. -/
def transferEventSig : Hash :=
  ⟨[0xdd, 0xf2, 0x52, 0xad, 0x1b, 0xe2, 0xc8, 0x9b, 0x69, 0xc2, 0xb0, 0x68, 0xfc, 0x37, 0x8d, 0xaa,
    0x95, 0x2b, 0xa7, 0xf1, 0x63, 0xc4, 0xa1, 0x16, 0x28, 0xf5, 0x5a, 0x4d, 0xf5, 0x23, 0xb3, 0xef],
   by decide⟩

/-- `common.BytesToAddress`: the last 20 bytes of `b`, left-padded with zeros
when `b` is shorter. -/
def BytesToAddress (b : List Byte) : Address :=
  ⟨(List.replicate 20 0 ++ b).drop b.length, by
    rw [List.length_drop, List.length_append, List.length_replicate]; omega⟩

/-- The unsigned integer written big-endian in `bs` (`big.Int.SetBytes`). -/
def bigEndian (bs : List Byte) : Nat := bs.foldl (fun acc b => acc * 256 + b.val) 0

/-- The value that `erc.UnpackIntoInterface(&out, "Transfer", data)` leaves in
`out.Value`. The event has one non-indexed argument, a `uint256`: the unpacker
refuses empty data and data shorter than one 32-byte word, and reads the word
at offset 0; it does not look at what follows that word. -/
def unpackTransferValue (data : List Byte) : Except Error Nat :=
  if data.length = 0 then
    .error "abi: attempting to unmarshal an empty string while arguments are expected"
  else if 32 > data.length then
    .error "abi: cannot marshal in to go type: length insufficient"
  else .ok (bigEndian (data.take 32))

def parseTransfer (ev : OnchainEvent) : Except Error (Address × Address × Nat) :=
  match unmarshalTopics ev.Topics with
  | none => .error "unmarshal topics"
  | some [] => .error "no topics"
  | some (t0 :: rest) =>
    if t0 ≠ transferEventSig then .error "not transfer event"
    else
      match rest with
      | t1 :: t2 :: _ =>
        let fromAddr := BytesToAddress (t1.val.drop 12)
        let toAddr := BytesToAddress (t2.val.drop 12)
        match unpackTransferValue ev.Data with
        | .error e => .error ("abi unpack err: " ++ e)
        | .ok value => .ok (fromAddr, toAddr, value)
      | _ => .error "topics len < 3"

/-! ## Processor (`scan_processor.go`) -/

def fetchPendingEvents (db : Store) (limit : Nat) : List OnchainEvent :=
  ((db.events.filter (fun e => e.Chain == PROCESS_CHAIN && !e.Processed)).insertionSort
    (fun a b => a.BlockNumber < b.BlockNumber ∨ (a.BlockNumber = b.BlockNumber ∧ a.ID ≤ b.ID))).take
    limit

/-- The event table after `UPDATE ... SET processed = true WHERE id = evID`. -/
def markProcessed (evID : Nat) (events : List OnchainEvent) : List OnchainEvent :=
  events.map (fun e => if e.ID == evID then { e with Processed := true } else e)

def markEventProcessedTx (f : Faults) (tx : Store) (evID : Nat) : Store × Option Error :=
  if f .markEvent then (tx, some "db: update onchain event")
  else ({ tx with events := markProcessed evID tx.events }, none)

/-- The deposit row built by `processEvent`. -/
def depositOf (id : Nat) (ev : OnchainEvent) (toAddr : Address) (ap : AddressPool) (value : Nat) :
    Deposit :=
  { ID := id
    Chain := PROCESS_CHAIN
    Token := some ev.Address
    ToAddress := lowerHex toAddr.val
    UserID := ap.UserID
    Amount := Nat.repr value
    TxHash := ev.TxHash
    BlockNumber := ev.BlockNumber
    Confirmed := true }

/-- The unsigned integer that a base-10 text denotes (`big.Int.SetString(text, 10)`
on an unsigned text): `none` for the empty text and for a text with a
character that is not a decimal digit. -/
def decimalValue (text : String) : Option Nat :=
  if text.data = [] ∨ ¬ text.data.all Char.isDigit then none
  else some (text.data.foldl (fun n c => n * 10 + (c.toNat - 48)) 0)

/-- The three reads of `processEvent`. The source treats a `First` that fails
with a database error like one that finds no row. -/
def rereadPending (f : Faults) (tx : Store) (evID : Nat) : Option OnchainEvent :=
  if f .rereadEvent then none
  else firstBy (fun e => e.ID) (fun e => e.ID == evID && !e.Processed) tx.events

def findPoolRow (f : Faults) (tx : Store) (address : String) : Option AddressPool :=
  if f .findPool then none
  else firstBy (fun a => a.ID) (fun a => a.Address == address) tx.pool

def findDuplicate (f : Faults) (tx : Store) (txHash toAddress : String) : Option Deposit :=
  if f .findDeposit then none
  else firstBy (fun d => d.ID) (fun d => d.TxHash == txHash && d.ToAddress == toAddress) tx.deposits

/-- The `Save(&ap)` of `processEvent` with `ap.Used` set: the row with the
primary key of `ap` is overwritten. -/
def savePoolUsed (ap : AddressPool) (pool : List AddressPool) : List AddressPool :=
  pool.map (fun a => if a.ID == ap.ID then { ap with Used := true } else a)

/-- The closure that `processEvent` runs inside `Transaction`: the database as
the closure leaves it, and the error the closure returns. -/
def processEventTx (f : Faults) (tx : Store) (ev : OnchainEvent) : Store × Option Error :=
  match rereadPending f tx ev.ID with
  | none => (tx, none)
  | some _ =>
    match parseTransfer ev with
    | .error _ => markEventProcessedTx f tx ev.ID
    | .ok (_, toAddr, value) =>
      match findPoolRow f tx (lowerHex toAddr.val) with
      | none => ((markEventProcessedTx f tx ev.ID).1, none)
      | some ap =>
        match findDuplicate f tx ev.TxHash (lowerHex toAddr.val) with
        | some _ => markEventProcessedTx f tx ev.ID
        | none =>
          if f .createDeposit then (tx, some "db: create deposit") else
          let tx := { tx with
            deposits := tx.deposits ++ [depositOf tx.depositSeq ev toAddr ap value]
            depositSeq := tx.depositSeq + 1 }
          match markEventProcessedTx f tx ev.ID with
          | (tx, some e) => (tx, some e)
          | (tx, none) =>
            if ap.ID != 0 && !ap.Used then
              if f .savePool then (tx, some "db: save address pool")
              else ({ tx with pool := savePoolUsed ap tx.pool }, none)
            else (tx, none)

/-- `Processor.processEvent`: the closure's writes are committed when it returns
no error and the commit succeeds, and discarded otherwise. -/
def processEvent (f : Faults) (db : Store) (ev : OnchainEvent) : Store × Option Error :=
  match processEventTx f db ev with
  | (_, some e) => (db, some e)
  | (tx, none) => if f .commitEvent then (db, some "db: commit") else (tx, none)

/-- One tick of `Processor.Run`: the pending events are fetched and
`processEvent` is run on each in turn, an error being logged and the loop
going on; a failed fetch skips the tick. -/
def processorPass (f : Faults) (limit : Nat) (db : Store) : Store :=
  if f .fetchPending then db
  else (fetchPendingEvents db limit).foldl (fun db ev => (processEvent f db ev).1) db

/-- The event `ev` is credited in `db`: if it decodes to a Transfer whose
destination is an address of the pool, the Deposit table holds a row with the
event's tx_hash and that destination. -/
def Credited (db : Store) (ev : OnchainEvent) : Prop :=
  ∀ fromAddr toAddr value, parseTransfer ev = .ok (fromAddr, toAddr, value) →
    (∃ a ∈ db.pool, a.Address = lowerHex toAddr.val) →
    ∃ d ∈ db.deposits, d.TxHash = ev.TxHash ∧ d.ToAddress = lowerHex toAddr.val

/-! ## Concrete scenarios

Small stores and chain clients on which the code is evaluated. -/

namespace Scenario

/-- The 32-byte topic word holding the address whose last byte is `n`. -/
def topicOf (n : Byte) : Hash := ⟨List.replicate 31 0 ++ [n], by simp⟩

/-- The 32-byte data word of the value `n < 256`. -/
def word (n : Byte) : List Byte := List.replicate 31 0 ++ [n]

/-- The lowercase hex text of the address whose last byte is `n`. -/
def addressText (n : Byte) : String := lowerHex (List.replicate 19 0 ++ [n])

/-- A Transfer of 7 units from address 1 to address 2, emitted by `0xtoken` in
block 5. -/
def transferLog (txHash : String) (index : Nat) : Log :=
  { BlockNumber := 5, BlockHash := "0xb5", TxHash := txHash, Index := index, Address := "0xtoken"
    Topics := [transferEventSig, topicOf 1, topicOf 2], Data := word 7 }

/-- The pool row of address 2, owned by user 7, filed under `chain`. -/
def poolRow (chain : String) : AddressPool :=
  { ID := 1, Chain := chain, Address := addressText 2, UserID := some 7, Used := false }

/-- A database whose only content is the pool row of address 2. -/
def poolOnly (chain : String) : Store := { Store.empty with pool := [poolRow chain] }

/-- Two Transfers of the one transaction `0xaa`, log indices 0 and 1, both to
the managed address 2. -/
def firstTransfer : OnchainEvent := eventOfLog 1 (transferLog "0xaa" 0)
def secondTransfer : OnchainEvent := eventOfLog 2 (transferLog "0xaa" 1)

def twoTransfers : Store :=
  { poolOnly "ethereum" with events := [firstTransfer, secondTransfer], eventSeq := 3 }

/-- The database after `processEvent` on the first of the two Transfers. -/
def afterFirstTransfer : Store := (processEvent Faults.none twoTransfers firstTransfer).1

/-- A chain with head 17 (so `safe = 5`) whose logs in `[1, 5]` are the single
Transfer of `0xaa`, and whose header for block 5 cannot be fetched. -/
def refetchClient : ChainClient :=
  { HeaderByNumber := fun n =>
      match n with
      | none => .ok { Number := 17, Hash := "0xhead" }
      | some _ => .error "rpc: header not available"
    FilterLogs := fun a b => if a = 1 ∧ b = 5 then .ok [transferLog "0xaa" 0] else .ok [] }

/-- The scanner after a first tick against `refetchClient`. -/
def afterFirstTick : Scanner := (stepOnce Faults.none refetchClient (NewScanner Store.empty)).1

/-- A database that rejects the `Create` of `persistLogs`, as a unique index on
`(chain, tx_hash, log_index)` does for a row already stored. -/
def rejectCreateEvent : Faults := fun op => op == DbOp.createEvent

/-- The stored hash of block `n` before the reorg, and the canonical hash after
it: blocks 8, 9 and 10 are replaced. -/
def oldHash (n : Nat) : String := String.mk ['0', 'x', 'a', hexDigit n]
def newHash (n : Nat) : String := if 8 ≤ n then String.mk ['0', 'x', 'b', hexDigit n] else oldHash n

/-- Processed blocks 1..10 as stored before the reorg. -/
def tenBlocks : Store :=
  { Store.empty with
    blocks := (List.range 10).map (fun i =>
      { ID := i + 1, Chain := CHAIN, BlockNumber := ((i + 1 : Nat) : Int), BlockHash := oldHash (i + 1) })
    blockSeq := 11 }

/-- The chain after the reorg: every header resolves, head 10. -/
def reorgedClient : ChainClient :=
  { HeaderByNumber := fun n =>
      match n with
      | none => .ok { Number := 10, Hash := newHash 10 }
      | some k => .ok { Number := k.toNat, Hash := newHash k.toNat }
    FilterLogs := fun _ _ => .ok [] }

/-- A processed Transfer in block 5 together with the deposit credited for it. -/
def creditedStore : Store :=
  processorPass Faults.none BATCH_PROCESS_SIZE
    { poolOnly "ethereum" with events := [firstTransfer], eventSeq := 2 }

/-- The Transfer of `firstTransfer` with a second 32-byte word appended to its
data. -/
def longDataTransfer : OnchainEvent := { firstTransfer with Data := word 7 ++ word 9 }

/-- The pool row of address 2 filed under another chain, and the pending
Transfer to address 2 observed on `ethereum`. -/
def otherChainPool : Store :=
  { poolOnly "bitcoin" with events := [firstTransfer], eventSeq := 2 }

/-- A log without topics (an anonymous event) in block 1. -/
def plainLog (index : Nat) : Log :=
  { BlockNumber := 1, BlockHash := "0xb1", TxHash := "0x01", Index := index, Address := "0xother"
    Topics := [], Data := [] }

/-- A backlog of 101 pending events: 100 logs without topics in block 1, then
the Transfer of `0xaa` to the managed address 2 in block 5. -/
def backlog : Store :=
  { poolOnly "ethereum" with
    events := (List.range 100).map (fun i => eventOfLog (i + 1) (plainLog i))
      ++ [eventOfLog 101 (transferLog "0xaa" 0)]
    eventSeq := 102 }

/-- The value of `keccak256("Approval(address,address,uint256)")`. -/
def approvalEventSig : Hash :=
  ⟨[0x8c, 0x5b, 0xe1, 0xe5, 0xeb, 0xec, 0x7d, 0x5b, 0xd1, 0x4f, 0x71, 0x42, 0x7d, 0x1e, 0x84, 0xf3,
    0xdd, 0x03, 0x14, 0xc0, 0xf7, 0xb2, 0x29, 0x1e, 0x5b, 0x20, 0x0a, 0xc8, 0xc7, 0xc3, 0xb9, 0x25],
   by decide⟩

/-- An Approval log to address 2, and a store holding it as its only pending
event next to the pool row of address 2. -/
def approvalEvent : OnchainEvent :=
  eventOfLog 1 { transferLog "0xcc" 0 with Topics := [approvalEventSig, topicOf 1, topicOf 2] }

def approvalStore : Store :=
  { poolOnly "ethereum" with events := [approvalEvent], eventSeq := 2 }

/-- A controller at step 25 that has counted four successes. -/
def fourSuccesses : Scanner :=
  { db := Store.empty, step := 25, successCount := 4, failureCount := 0 }

/-- Processed blocks 1..10 where the row of block 10 already holds the
canonical hash of `reorgedClient` and the rows of blocks 8 and 9 still hold
the replaced ones. -/
def staleBelowHead : Store :=
  { Store.empty with
    blocks := (List.range 10).map (fun i =>
      { ID := i + 1, Chain := CHAIN, BlockNumber := ((i + 1 : Nat) : Int)
        BlockHash := if i + 1 = 10 then newHash 10 else oldHash (i + 1) })
    blockSeq := 11 }

/-- A chain on which every block still has the hash stored in `tenBlocks`. -/
def unchangedClient : ChainClient :=
  { HeaderByNumber := fun n =>
      match n with
      | none => .ok { Number := 10, Hash := oldHash 10 }
      | some k => .ok { Number := k.toNat, Hash := oldHash k.toNat }
    FilterLogs := fun _ _ => .ok [] }

/-- A database whose only ProcessedBlock row belongs to another chain, at block
1000. -/
def foreignChainBlock : Store :=
  { Store.empty with
    blocks := [{ ID := 1, Chain := "polygon", BlockNumber := 1000, BlockHash := "0xp1000" }]
    blockSeq := 2 }

/-- A chain with head 100 (so `safe = 88`) on which every header resolves and
every log query returns the Transfer of `0xaa`. -/
def busyClient : ChainClient :=
  { HeaderByNumber := fun n =>
      match n with
      | none => .ok { Number := 100, Hash := "0xhead" }
      | some k => .ok { Number := k.toNat, Hash := "0xblock" }
    FilterLogs := fun _ _ => .ok [transferLog "0xaa" 0] }

/-- A chain client whose every call fails. -/
def downClient : ChainClient :=
  { HeaderByNumber := fun _ => .error "rpc: connection refused"
    FilterLogs := fun _ _ => .error "rpc: connection refused" }

/-- A chain with head 100 whose log queries fail. -/
def logsDownClient : ChainClient :=
  { HeaderByNumber := fun n =>
      match n with
      | none => .ok { Number := 100, Hash := "0xhead" }
      | some k => .ok { Number := k.toNat, Hash := "0xblock" }
    FilterLogs := fun _ _ => .error "rpc: query timeout" }

/-- The Transfer to address 2 was processed while the pool was empty, so it was
marked processed without a Deposit; the pool row of address 2 was added
afterwards. -/
def creditedLate : Store :=
  { processorPass Faults.none BATCH_PROCESS_SIZE
      { Store.empty with events := [firstTransfer], eventSeq := 2 } with
    pool := [poolRow "ethereum"] }

end Scenario

/-! ## Theorems -/

theorem adjustStepOnSuccess_bounds (s : Scanner)
    (h : MIN_STEP ≤ s.step ∧ s.step ≤ MAX_STEP) :
    MIN_STEP ≤ (adjustStepOnSuccess s).step ∧ (adjustStepOnSuccess s).step ≤ MAX_STEP := by
  obtain ⟨h1, h2⟩ := h
  unfold adjustStepOnSuccess growStep
  simp only [MIN_STEP, MAX_STEP] at *
  split_ifs <;> (simp_all; try omega)

theorem adjustStepOnFailure_bounds (s : Scanner)
    (h : MIN_STEP ≤ s.step ∧ s.step ≤ MAX_STEP) :
    MIN_STEP ≤ (adjustStepOnFailure s).step ∧ (adjustStepOnFailure s).step ≤ MAX_STEP := by
  obtain ⟨h1, h2⟩ := h
  unfold adjustStepOnFailure shrinkStep
  simp only [MIN_STEP, MAX_STEP] at *
  split_ifs <;> (simp_all; try omega)

theorem notifyAll_bounds (ns : List Notice) (s : Scanner)
    (h : MIN_STEP ≤ s.step ∧ s.step ≤ MAX_STEP) :
    MIN_STEP ≤ (s.notifyAll ns).step ∧ (s.notifyAll ns).step ≤ MAX_STEP := by
  induction ns generalizing s with
  | nil => exact h
  | cons n ns ih =>
    cases n
    · exact ih _ (adjustStepOnSuccess_bounds s h)
    · exact ih _ (adjustStepOnFailure_bounds s h)

/-- C5: starting from the scanner built by `NewScanner` (step `INITIAL_STEP`,
both counters zero), after every call of any finite sequence of
`adjustStepOnSuccess` / `adjustStepOnFailure` calls the step lies in
`[MIN_STEP, MAX_STEP] = [10, 2000]`: the bound holds after each prefix
`ns.take k` of the sequence. -/
theorem step_stays_within_bounds (db : Store) (ns : List Notice) (k : Nat) :
    10 ≤ ((NewScanner db).notifyAll (ns.take k)).step ∧
      ((NewScanner db).notifyAll (ns.take k)).step ≤ 2000 ∧
      MIN_STEP = 10 ∧ MAX_STEP = 2000 := by
  have h0 : MIN_STEP ≤ (NewScanner db).step ∧ (NewScanner db).step ≤ MAX_STEP := by
    simp [NewScanner, MIN_STEP, MAX_STEP, INITIAL_STEP]
  have h := notifyAll_bounds (ns.take k) (NewScanner db) h0
  exact ⟨h.1, h.2, rfl, rfl⟩

/-! ### Evaluations on the scenarios -/

/-- C1: two Transfer events of the one transaction `0xaa`, log indices 0 and 1,
both to the managed address 2. The first yields a Deposit. The second is
pending, decodes to a Transfer to the same managed address and has another
log index, yet `processEvent` returns no error, marks it processed and inserts
nothing: the Deposit table still holds the single row of the first event. -/
theorem second_transfer_same_tx_not_credited :
    Scenario.firstTransfer.TxHash = Scenario.secondTransfer.TxHash ∧
    Scenario.firstTransfer.LogIndex ≠ Scenario.secondTransfer.LogIndex ∧
    (parseTransfer Scenario.secondTransfer).toOption.map (fun r => (lowerHex r.2.1.val, r.2.2))
      = some (Scenario.addressText 2, 7) ∧
    Scenario.afterFirstTransfer.pool.map (fun a => (a.Chain, a.Address))
      = [("ethereum", Scenario.addressText 2)] ∧
    Scenario.afterFirstTransfer.events.map (fun e => (e.LogIndex, e.Processed))
      = [(0, true), (1, false)] ∧
    Scenario.afterFirstTransfer.deposits.map (fun d => (d.ID, d.TxHash, d.Amount)) = [(1, "0xaa", "7")] ∧
    (processEvent Faults.none Scenario.afterFirstTransfer Scenario.secondTransfer).2 = none ∧
    (processEvent Faults.none Scenario.afterFirstTransfer Scenario.secondTransfer).1.deposits
      = Scenario.afterFirstTransfer.deposits ∧
    (processEvent Faults.none Scenario.afterFirstTransfer Scenario.secondTransfer).1.events.map
      (fun e => (e.LogIndex, e.Processed)) = [(0, true), (1, true)] := by
  decide!

/-- C2: a first tick scans `[1, 5]`, stores the one log and, the header of
block 5 being unavailable, persists no ProcessedBlock. The next tick fetches
`[1, 5]` again. When the database accepts the insert, the log is stored a
second time under a new primary key; when the database rejects it, `stepOnce`
rolls back and returns the error. In neither case is the stored log skipped. -/
theorem refetched_log_stored_twice_or_error :
    Scenario.afterFirstTick.db.blocks = [] ∧
    Scenario.afterFirstTick.db.events.map (fun e => (e.ID, e.Chain, e.TxHash, e.LogIndex))
      = [(1, "ethereum", "0xaa", 0)] ∧
    (stepOnce Faults.none Scenario.refetchClient Scenario.afterFirstTick).1.db.events.map
      (fun e => (e.ID, e.Chain, e.TxHash, e.LogIndex))
      = [(1, "ethereum", "0xaa", 0), (2, "ethereum", "0xaa", 0)] ∧
    (stepOnce Scenario.rejectCreateEvent Scenario.refetchClient Scenario.afterFirstTick).2
      = some "db: create onchain event" ∧
    (stepOnce Scenario.rejectCreateEvent Scenario.refetchClient Scenario.afterFirstTick).1.step
      = 100 := by
  decide!

/-- C3: stored blocks 1..10, of which 8, 9 and 10 were replaced on the chain,
every header resolvable. `detectAndHandleReorg` returns no error and deletes
only the row of block 10: the rows of blocks 8 and 9 remain, with hashes that
differ from the canonical ones. -/
theorem reorg_depth_three_deletes_only_newest :
    (detectAndHandleReorg Faults.none Scenario.reorgedClient Scenario.tenBlocks).2 = none ∧
    (detectAndHandleReorg Faults.none Scenario.reorgedClient Scenario.tenBlocks).1.blocks.map
      (fun r => r.BlockNumber) = [1, 2, 3, 4, 5, 6, 7, 8, 9] ∧
    ((detectAndHandleReorg Faults.none Scenario.reorgedClient Scenario.tenBlocks).1.blocks.filter
      (fun r => r.BlockHash != Scenario.newHash r.BlockNumber.toNat)).map
      (fun r => (r.BlockNumber, r.BlockHash, Scenario.newHash r.BlockNumber.toNat))
      = [(8, "0xa8", "0xb8"), (9, "0xa9", "0xb9")] := by
  decide!

/-! ### Rollback -/

/-- C4, as stated, fails: in `creditedStore` the Transfer of `0xaa` in block 5
is processed and credited; `rollbackToBlock 3` succeeds and the Deposit of
`0xaa` is still there, next to the event of block 5 > 3 with the same
tx_hash. -/
theorem rollback_keeps_deposit_of_reverted_event :
    (rollbackToBlock Faults.none Scenario.creditedStore 3).2 = none ∧
    ∃ d ∈ (rollbackToBlock Faults.none Scenario.creditedStore 3).1.deposits,
      ∃ e ∈ Scenario.creditedStore.events, e.BlockNumber > 3 ∧ d.TxHash = e.TxHash := by
  decide!

/-- C4, amended: for every store and every pivot, after `rollbackToBlock pivot`
succeeds every OnChainEvent of this chain with `block_number > pivot` has
`processed = false`, no event row is deleted or otherwise changed (the event
table is the old one up to the processed flags), and the Deposit table is
unchanged. -/
theorem rollbackToBlock_reopens_events_keeps_deposits (f : Faults) (db : Store) (pivot : Int)
    (h : (rollbackToBlock f db pivot).2 = none) :
    (rollbackToBlock f db pivot).1.deposits = db.deposits ∧
    (∀ e ∈ (rollbackToBlock f db pivot).1.events,
      e.Chain = CHAIN → e.BlockNumber > pivot → e.Processed = false) ∧
    (rollbackToBlock f db pivot).1.events.map (fun e => { e with Processed := false })
      = db.events.map (fun e => { e with Processed := false }) := by
  unfold rollbackToBlock at h ⊢
  by_cases h1 : f .deleteBlocks = true
  · simp [h1] at h
  by_cases h2 : f .reopenEvents = true
  · simp [h1, h2] at h
  simp only [h1, h2, Bool.false_eq_true, if_false]
  refine ⟨trivial, ?_, ?_⟩
  · intro e he hc hb
    simp only [List.mem_map] at he
    obtain ⟨e0, _, rfl⟩ := he
    by_cases hk : (e0.Chain == CHAIN && decide (e0.BlockNumber > pivot)) = true
    · simp [hk]
    · simp only [hk, Bool.false_eq_true, if_false] at hc hb ⊢
      simp [hc, hb] at hk
  · simp only [List.map_map]
    apply List.map_congr_left
    intro e _
    simp only [Function.comp]
    split <;> rfl

theorem rollbackToBlock_reopens_events_keeps_deposits_witness :
    (rollbackToBlock Faults.none Scenario.creditedStore 3).2 = none ∧
    (rollbackToBlock Faults.none Scenario.creditedStore 3).1.deposits
      = Scenario.creditedStore.deposits ∧
    (∀ e ∈ (rollbackToBlock Faults.none Scenario.creditedStore 3).1.events,
      e.Chain = CHAIN → e.BlockNumber > 3 → e.Processed = false) ∧
    (rollbackToBlock Faults.none Scenario.creditedStore 3).1.events.map
        (fun e => { e with Processed := false })
      = Scenario.creditedStore.events.map (fun e => { e with Processed := false }) :=
  ⟨by decide!, rollbackToBlock_reopens_events_keeps_deposits Faults.none Scenario.creditedStore 3
    (by decide!)⟩

/-! ### Event decoder -/

theorem BytesToAddress_val_of_length (b : List Byte) (h : b.length = 20) :
    (BytesToAddress b).val = b := by
  have h20 : (List.replicate 20 (0 : Byte)).length = b.length := by simp [h]
  show (List.replicate 20 0 ++ b).drop b.length = b
  rw [← h20]
  exact List.drop_left _ _

theorem low20_length (t : Hash) : (t.val.drop 12).length = 20 := by
  rw [List.length_drop, t.property]

theorem unpackTransferValue_ok_iff (data : List Byte) :
    (∃ v, unpackTransferValue data = .ok v) ↔ 32 ≤ data.length := by
  unfold unpackTransferValue
  constructor
  · rintro ⟨v, hv⟩
    split_ifs at hv with h0 h1
    omega
  · intro h
    have h0 : ¬ data.length = 0 := by omega
    have h1 : ¬ 32 > data.length := by omega
    exact ⟨_, by rw [if_neg h0, if_neg h1]⟩

theorem unpackTransferValue_value (data : List Byte) (v : Nat)
    (h : unpackTransferValue data = .ok v) : v = bigEndian (data.take 32) := by
  unfold unpackTransferValue at h
  split_ifs at h
  exact (Except.ok.inj h).symm

/-- C7, as stated, fails: the Transfer whose data is two 32-byte words (64
bytes, not one 32-byte word) is decoded, with the first word as its value. -/
theorem parseTransfer_accepts_longer_data :
    Scenario.longDataTransfer.Data.length = 64 ∧
    (parseTransfer Scenario.longDataTransfer).toOption.map (fun r => r.2.2) = some 7 := by
  decide!

/-- C7, amended: `parseTransfer` succeeds on an event when and only when its
topics text decodes to a list of at least 3 entries, `topics[0]` equals
`keccak256("Transfer(address,address,uint256)")`, and `data` holds at least 32
bytes (the first 32-byte word is the value; bytes after it are not looked at).
Every other event is rejected. -/
theorem parseTransfer_ok_iff (ev : OnchainEvent) :
    (∃ r, parseTransfer ev = .ok r) ↔
      ∃ topics, unmarshalTopics ev.Topics = some topics ∧ 3 ≤ topics.length ∧
        topics.head? = some transferEventSig ∧ 32 ≤ ev.Data.length := by
  unfold parseTransfer
  cases hT : unmarshalTopics ev.Topics with
  | none => simp
  | some topics =>
    cases topics with
    | nil => simp
    | cons t0 rest =>
      by_cases hs : t0 = transferEventSig
      · subst hs
        match rest with
        | [] => simp
        | [_] => simp
        | t1 :: t2 :: more =>
          have key := unpackTransferValue_ok_iff ev.Data
          cases hU : unpackTransferValue ev.Data with
          | error e =>
            rw [hU] at key
            have : ¬ 32 ≤ ev.Data.length := fun h => by
              obtain ⟨v, hv⟩ := key.2 h
              cases hv
            simp [this]
          | ok v =>
            rw [hU] at key
            have : 32 ≤ ev.Data.length := key.1 ⟨v, rfl⟩
            simp [this]
      · simp [hs]

/-- C8: whenever `parseTransfer` succeeds, `from` is the low 20 bytes of
`topics[1]` (the bytes after the first 12), `to` is the low 20 bytes of
`topics[2]`, and `value` is the big-endian unsigned integer of the first 32
bytes of `data`, which are all of `data` when it is one 32-byte word. -/
theorem parseTransfer_fields (ev : OnchainEvent) (fromAddr toAddr : Address) (value : Nat)
    (h : parseTransfer ev = .ok (fromAddr, toAddr, value)) :
    ∃ topics t1 t2, unmarshalTopics ev.Topics = some topics ∧
      topics[1]? = some t1 ∧ topics[2]? = some t2 ∧
      fromAddr.val = t1.val.drop 12 ∧ toAddr.val = t2.val.drop 12 ∧
      value = bigEndian (ev.Data.take 32) ∧
      (ev.Data.length = 32 → value = bigEndian ev.Data) := by
  unfold parseTransfer at h
  cases hT : unmarshalTopics ev.Topics with
  | none => simp [hT] at h
  | some topics =>
    rw [hT] at h
    match topics, h with
    | [], h => simp at h
    | [_], h => simp at h; split_ifs at h
    | [_, _], h => simp at h; split_ifs at h
    | t0 :: t1 :: t2 :: more, h =>
      simp only at h
      split_ifs at h with hs
      cases hU : unpackTransferValue ev.Data with
      | error e => simp [hU] at h
      | ok v =>
        simp only [hU, Except.ok.injEq, Prod.mk.injEq] at h
        obtain ⟨hf, ht, hv⟩ := h
        have hval := unpackTransferValue_value ev.Data v hU
        refine ⟨_, t1, t2, rfl, by simp, by simp, ?_, ?_, ?_, ?_⟩
        · rw [← hf, BytesToAddress_val_of_length _ (low20_length t1)]
        · rw [← ht, BytesToAddress_val_of_length _ (low20_length t2)]
        · rw [← hv, hval]
        · intro h32
          rw [← hv, hval, List.take_of_length_le (le_of_eq h32)]

theorem parseTransfer_fields_witness :
    ∃ topics t1 t2, unmarshalTopics Scenario.firstTransfer.Topics = some topics ∧
      topics[1]? = some t1 ∧ topics[2]? = some t2 ∧
      (BytesToAddress (List.replicate 19 0 ++ [1])).val = t1.val.drop 12 ∧
      (BytesToAddress (List.replicate 19 0 ++ [2])).val = t2.val.drop 12 ∧
      7 = bigEndian (Scenario.firstTransfer.Data.take 32) ∧
      (Scenario.firstTransfer.Data.length = 32 → 7 = bigEndian Scenario.firstTransfer.Data) :=
  parseTransfer_fields Scenario.firstTransfer (BytesToAddress (List.replicate 19 0 ++ [1]))
    (BytesToAddress (List.replicate 19 0 ++ [2])) 7 (by decide!)

/-! ### Processor -/

theorem firstBy_eq_none_iff {α : Type} (key : α → Nat) (p : α → Bool) (l : List α) :
    firstBy key p l = none ↔ ∀ x ∈ l, p x = false := by
  induction l with
  | nil => simp [firstBy]
  | cons x xs ih =>
    unfold firstBy
    cases hrec : firstBy key p xs with
    | none =>
      have hxs := ih.1 hrec
      by_cases hp : p x = true
      · simp [hp]
      · simp only [Bool.not_eq_true] at hp
        simp only [hp, Bool.false_eq_true, if_false, List.mem_cons, forall_eq_or_imp, true_and]
        exact ⟨fun _ => hxs, fun _ => trivial⟩
    | some y =>
      have hne : ¬ ∀ z ∈ xs, p z = false := fun h => by
        rw [ih.2 h] at hrec; cases hrec
      simp only [List.mem_cons, forall_eq_or_imp]
      constructor
      · intro h; split_ifs at h
      · intro h; exact absurd h.2 hne

theorem firstBy_some {α : Type} (key : α → Nat) (p : α → Bool) (l : List α) (x : α)
    (h : firstBy key p l = some x) : x ∈ l ∧ p x = true := by
  induction l generalizing x with
  | nil => simp [firstBy] at h
  | cons a as ih =>
    unfold firstBy at h
    cases hrec : firstBy key p as with
    | none =>
      rw [hrec] at h
      simp only at h
      split_ifs at h with hp
      cases h
      exact ⟨List.mem_cons_self _ _, hp⟩
    | some y =>
      rw [hrec] at h
      simp only at h
      have hy := ih y hrec
      split_ifs at h with hp
      · cases h
        simp only [Bool.and_eq_true] at hp
        exact ⟨List.mem_cons_self _ _, hp.1⟩
      · cases h
        exact ⟨List.mem_cons_of_mem _ hy.1, hy.2⟩

theorem rereadPending_none_of_processed (f : Faults) (db : Store) (id : Nat)
    (h : ∀ e ∈ db.events, e.ID = id → e.Processed = true) : rereadPending f db id = none := by
  unfold rereadPending
  split_ifs
  · rfl
  · rw [firstBy_eq_none_iff]
    intro e he
    by_cases hid : e.ID = id
    · simp [hid, h e he hid]
    · simp [hid]

theorem rereadPending_some_of_pending (f : Faults) (db : Store) (id : Nat)
    (hf : f .rereadEvent = false) (h : ∃ e ∈ db.events, e.ID = id ∧ e.Processed = false) :
    ∃ e, rereadPending f db id = some e := by
  unfold rereadPending
  rw [if_neg (by simp [hf])]
  cases hfb : firstBy (fun e => e.ID) (fun e => e.ID == id && !e.Processed) db.events with
  | some e => exact ⟨e, rfl⟩
  | none =>
    obtain ⟨e, he, hid, hp⟩ := h
    have := (firstBy_eq_none_iff _ _ _).1 hfb e he
    simp [hid, hp] at this

theorem findPoolRow_none_of_no_row (f : Faults) (db : Store) (address : String)
    (h : ∀ a ∈ db.pool, a.Address ≠ address) : findPoolRow f db address = none := by
  unfold findPoolRow
  split_ifs
  · rfl
  · rw [firstBy_eq_none_iff]
    intro a ha
    simpa using h a ha

theorem findPoolRow_some (f : Faults) (db : Store) (address : String) (ap : AddressPool)
    (h : findPoolRow f db address = some ap) : ap ∈ db.pool ∧ ap.Address = address := by
  unfold findPoolRow at h
  split_ifs at h
  have := firstBy_some _ _ _ _ h
  simpa using this

theorem markProcessed_of_processed (evID : Nat) (events : List OnchainEvent)
    (h : ∀ e ∈ events, e.ID = evID → e.Processed = true) : markProcessed evID events = events := by
  unfold markProcessed
  conv_rhs => rw [← List.map_id events]
  apply List.map_congr_left
  intro e he
  by_cases hid : e.ID = evID
  · have hp := h e he hid
    simp only [hid, beq_self_eq_true, if_true, id_eq]
    cases e
    simp_all
  · simp [hid]

theorem processEvent_processed_noop (f : Faults) (db : Store) (ev : OnchainEvent)
    (h : ∀ e ∈ db.events, e.ID = ev.ID → e.Processed = true) :
    (processEvent f db ev).1 = db := by
  unfold processEvent processEventTx
  rw [rereadPending_none_of_processed f db ev.ID h]
  simp only
  split_ifs <;> rfl

theorem processEvent_events (db : Store) (ev : OnchainEvent) :
    (processEvent Faults.none db ev).1.events = markProcessed ev.ID db.events := by
  cases h1 : rereadPending Faults.none db ev.ID with
  | none =>
    have hall : ∀ e ∈ db.events, e.ID = ev.ID → e.Processed = true := by
      intro e he hid
      unfold rereadPending at h1
      simp only [Faults.none, Bool.false_eq_true, if_false] at h1
      have := (firstBy_eq_none_iff _ _ _).1 h1 e he
      simpa [hid] using this
    simp [processEvent, processEventTx, h1, Faults.none, markProcessed_of_processed _ _ hall]
  | some e0 =>
    cases h2 : parseTransfer ev with
    | error e => simp [processEvent, processEventTx, h1, h2, markEventProcessedTx, Faults.none]
    | ok r =>
      obtain ⟨fromAddr, toAddr, value⟩ := r
      cases h3 : findPoolRow Faults.none db (lowerHex toAddr.val) with
      | none => simp [processEvent, processEventTx, h1, h2, h3, markEventProcessedTx, Faults.none]
      | some ap =>
        cases h4 : findDuplicate Faults.none db ev.TxHash (lowerHex toAddr.val) with
        | some d =>
          simp [processEvent, processEventTx, h1, h2, h3, h4, markEventProcessedTx, Faults.none]
        | none =>
          simp only [processEvent, processEventTx, h1, h2, h3, h4, markEventProcessedTx, Faults.none,
            Bool.false_eq_true, if_false]
          split_ifs <;> rfl

theorem foldl_processEvent_events (evs : List OnchainEvent) (db : Store) :
    (evs.foldl (fun db ev => (processEvent Faults.none db ev).1) db).events
      = evs.foldl (fun es ev => markProcessed ev.ID es) db.events := by
  induction evs generalizing db with
  | nil => rfl
  | cons ev evs ih =>
    simp only [List.foldl_cons]
    rw [ih, processEvent_events]

theorem foldl_markProcessed (evs : List OnchainEvent) (es : List OnchainEvent) :
    evs.foldl (fun es ev => markProcessed ev.ID es) es
      = es.map (fun e => if evs.any (fun ev => e.ID == ev.ID) then { e with Processed := true } else e) := by
  induction evs generalizing es with
  | nil => simp
  | cons ev evs ih =>
    simp only [List.foldl_cons]
    rw [ih, markProcessed, List.map_map]
    apply List.map_congr_left
    intro e _
    simp only [Function.comp, List.any_cons]
    by_cases h1 : e.ID = ev.ID
    · simp [h1]
    · simp [h1]

theorem fetchPendingEvents_of_fits (db : Store) (limit : Nat)
    (h : (db.events.filter (fun e => e.Chain == PROCESS_CHAIN && !e.Processed)).length ≤ limit)
    (e : OnchainEvent) (he : e ∈ db.events) (hc : e.Chain = PROCESS_CHAIN)
    (hp : e.Processed = false) : e ∈ fetchPendingEvents db limit := by
  unfold fetchPendingEvents
  rw [List.take_of_length_le (by rw [List.length_insertionSort]; exact h)]
  rw [(List.perm_insertionSort _ _).mem_iff]
  simp [he, hc, hp]

theorem fetchPendingEvents_after_pass (db : Store) (limit : Nat)
    (h : (db.events.filter (fun e => e.Chain == PROCESS_CHAIN && !e.Processed)).length ≤ limit) :
    fetchPendingEvents (processorPass Faults.none limit db) limit = [] := by
  have hev : (processorPass Faults.none limit db).events
      = db.events.map (fun e => if (fetchPendingEvents db limit).any (fun ev => e.ID == ev.ID)
          then { e with Processed := true } else e) := by
    simp only [processorPass, Faults.none, Bool.false_eq_true, if_false]
    rw [foldl_processEvent_events, foldl_markProcessed]
  have hnil : (processorPass Faults.none limit db).events.filter
      (fun e => e.Chain == PROCESS_CHAIN && !e.Processed) = [] := by
    rw [hev, List.filter_eq_nil_iff]
    intro e' he'
    rw [List.mem_map] at he'
    obtain ⟨e, he, rfl⟩ := he'
    by_cases hc : e.Chain = PROCESS_CHAIN
    · cases hp : e.Processed with
      | true => split_ifs <;> simp [hp]
      | false =>
        have hmem := fetchPendingEvents_of_fits db limit h e he hc hp
        have hany : (fetchPendingEvents db limit).any (fun ev => e.ID == ev.ID) = true := by
          rw [List.any_eq_true]
          exact ⟨e, hmem, by simp⟩
        simp [hany]
    · split_ifs <;> simp [hc]
  unfold fetchPendingEvents
  rw [hnil]
  simp

theorem processorPass_of_no_pending (db : Store) (limit : Nat)
    (h : fetchPendingEvents db limit = []) : processorPass Faults.none limit db = db := by
  simp [processorPass, Faults.none, h]

theorem iterate_processorPass_of_no_pending (db : Store) (limit : Nat)
    (h : fetchPendingEvents db limit = []) (n : Nat) :
    (processorPass Faults.none limit)^[n] db = db := by
  induction n with
  | zero => rfl
  | succ n ih => rw [Function.iterate_succ_apply, processorPass_of_no_pending db limit h, ih]

/-- C6, as stated, fails: with 101 events pending, a first pass of the
processor loop (batch size `BATCH_PROCESS_SIZE = 100`) completes and leaves
no Deposit; a further pass over the same event table then adds the Deposit of
the 101st event. -/
theorem second_pass_adds_deposit_of_backlog :
    (Scenario.backlog.events.filter (fun e => e.Chain == PROCESS_CHAIN && !e.Processed)).length
      = 101 ∧
    (processorPass Faults.none BATCH_PROCESS_SIZE Scenario.backlog).deposits = [] ∧
    (processorPass Faults.none BATCH_PROCESS_SIZE
      (processorPass Faults.none BATCH_PROCESS_SIZE Scenario.backlog)).deposits.map
        (fun d => (d.TxHash, d.ToAddress, d.Amount)) = [("0xaa", Scenario.addressText 2, "7")] := by
  decide!

/-- C6, amended: when a processor pass (`fetchPendingEvents` followed by
`processEvent` on each event, the database not failing) has run over an event
table whose pending events of this chain fit in the batch, any number of
further passes leaves the store, hence the set of Deposit rows, unchanged; and
`processEvent` on an event whose processed flag is already true changes
nothing in the store, whatever the database does. -/
theorem replay_after_draining_pass_is_noop (db : Store) (limit : Nat)
    (h : (db.events.filter (fun e => e.Chain == PROCESS_CHAIN && !e.Processed)).length ≤ limit) :
    (∀ n, (processorPass Faults.none limit)^[n] (processorPass Faults.none limit db)
        = processorPass Faults.none limit db) ∧
    (∀ (f : Faults) (s : Store) (ev : OnchainEvent),
      (∀ e ∈ s.events, e.ID = ev.ID → e.Processed = true) → (processEvent f s ev).1 = s) :=
  ⟨iterate_processorPass_of_no_pending _ limit (fetchPendingEvents_after_pass db limit h),
   processEvent_processed_noop⟩


theorem replay_after_draining_pass_is_noop_witness :
    (Scenario.twoTransfers.events.filter
      (fun e => e.Chain == PROCESS_CHAIN && !e.Processed)).length ≤ BATCH_PROCESS_SIZE ∧
    ((∀ n, (processorPass Faults.none BATCH_PROCESS_SIZE)^[n]
          (processorPass Faults.none BATCH_PROCESS_SIZE Scenario.twoTransfers)
        = processorPass Faults.none BATCH_PROCESS_SIZE Scenario.twoTransfers) ∧
    (∀ (f : Faults) (s : Store) (ev : OnchainEvent),
      (∀ e ∈ s.events, e.ID = ev.ID → e.Processed = true) → (processEvent f s ev).1 = s)) :=
  ⟨by decide!, replay_after_draining_pass_is_noop Scenario.twoTransfers BATCH_PROCESS_SIZE
    (by decide!)⟩

/-- C9, as stated, fails: the only pool row with the destination address is
filed under chain `bitcoin`, the event is of chain `ethereum`, and
`processEvent` inserts a Deposit for it. -/
theorem deposit_for_pool_row_of_other_chain :
    Scenario.firstTransfer.Chain = "ethereum" ∧
    Scenario.otherChainPool.pool.map (fun a => (a.Chain, a.Address))
      = [("bitcoin", Scenario.addressText 2)] ∧
    Scenario.otherChainPool.deposits = [] ∧
    (processEvent Faults.none Scenario.otherChainPool Scenario.firstTransfer).1.deposits.map
      (fun d => (d.Chain, d.ToAddress, d.UserID, d.TxHash, d.Amount))
      = [("ethereum", Scenario.addressText 2, some 7, "0xaa", "7")] := by
  decide!

/-- C9, amended: `processEvent` changes the Deposit table only by appending one
Deposit, and only if the event decodes to a Transfer and AddressPool holds a
row whose address equals the lowercase hex text of the decoded destination;
the chain of the pool row is not looked at. -/
theorem deposit_requires_pool_address (f : Faults) (db : Store) (ev : OnchainEvent)
    (h : (processEvent f db ev).1.deposits ≠ db.deposits) :
    ∃ fromAddr toAddr value ap, parseTransfer ev = .ok (fromAddr, toAddr, value) ∧
      ap ∈ db.pool ∧ ap.Address = lowerHex toAddr.val ∧
      (processEvent f db ev).1.deposits
        = db.deposits ++ [depositOf db.depositSeq ev toAddr ap value] := by
  cases h1 : rereadPending f db ev.ID with
  | none =>
    exfalso; apply h
    simp only [processEvent, processEventTx, h1]
    split_ifs <;> rfl
  | some e0 =>
    cases h2 : parseTransfer ev with
    | error e =>
      exfalso; apply h
      simp only [processEvent, processEventTx, h1, h2, markEventProcessedTx]
      by_cases hm : f .markEvent = true <;> by_cases hc : f .commitEvent = true <;> simp [hm, hc]
    | ok r =>
      obtain ⟨fromAddr, toAddr, value⟩ := r
      cases h3 : findPoolRow f db (lowerHex toAddr.val) with
      | none =>
        exfalso; apply h
        simp only [processEvent, processEventTx, h1, h2, h3, markEventProcessedTx]
        by_cases hm : f .markEvent = true <;> by_cases hc : f .commitEvent = true <;> simp [hm, hc]
      | some ap =>
        obtain ⟨hap, haddr⟩ := findPoolRow_some f db _ ap h3
        refine ⟨fromAddr, toAddr, value, ap, rfl, hap, haddr, ?_⟩
        cases h4 : findDuplicate f db ev.TxHash (lowerHex toAddr.val) with
        | some d =>
          exfalso; apply h
          simp only [processEvent, processEventTx, h1, h2, h3, h4, markEventProcessedTx]
          by_cases hm : f .markEvent = true <;> by_cases hc : f .commitEvent = true <;>
            simp [hm, hc]
        | none =>
          by_cases hd : f .createDeposit = true
          · exfalso; apply h
            simp [processEvent, processEventTx, h1, h2, h3, h4, hd]
          by_cases hm : f .markEvent = true
          · exfalso; apply h
            simp [processEvent, processEventTx, h1, h2, h3, h4, hd, hm, markEventProcessedTx]
          by_cases hu : (ap.ID != 0 && !ap.Used) = true
          · by_cases hs : f .savePool = true
            · exfalso; apply h
              simp [processEvent, processEventTx, h1, h2, h3, h4, hd, hm, hu, hs,
                markEventProcessedTx]
            · by_cases hc : f .commitEvent = true
              · exfalso; apply h
                simp [processEvent, processEventTx, h1, h2, h3, h4, hd, hm, hu, hs, hc,
                  markEventProcessedTx]
              · simp [processEvent, processEventTx, h1, h2, h3, h4, hd, hm, hu, hs, hc,
                  markEventProcessedTx]
          · by_cases hc : f .commitEvent = true
            · exfalso; apply h
              simp [processEvent, processEventTx, h1, h2, h3, h4, hd, hm, hu, hc,
                markEventProcessedTx]
            · simp [processEvent, processEventTx, h1, h2, h3, h4, hd, hm, hu, hc,
                markEventProcessedTx]


theorem deposit_requires_pool_address_witness :
    (processEvent Faults.none Scenario.otherChainPool Scenario.firstTransfer).1.deposits
        ≠ Scenario.otherChainPool.deposits ∧
    ∃ fromAddr toAddr value ap,
      parseTransfer Scenario.firstTransfer = .ok (fromAddr, toAddr, value) ∧
      ap ∈ Scenario.otherChainPool.pool ∧ ap.Address = lowerHex toAddr.val ∧
      (processEvent Faults.none Scenario.otherChainPool Scenario.firstTransfer).1.deposits
        = Scenario.otherChainPool.deposits ++
          [depositOf Scenario.otherChainPool.depositSeq Scenario.firstTransfer toAddr ap value] :=
  ⟨by decide!, deposit_requires_pool_address Faults.none Scenario.otherChainPool
    Scenario.firstTransfer (by decide!)⟩

/-- C10: for a pending event that is not an ERC-20 Transfer (`parseTransfer`
fails) or whose decoded destination has no AddressPool row, `processEvent`
with its database calls succeeding returns no error and a store that differs
from the old one only in the event table, where exactly the rows with the
event's id have `processed = true` and every other row is as before: the
Deposit and AddressPool tables are unchanged. -/
theorem processEvent_skips_uncredited (f : Faults) (db : Store) (ev : OnchainEvent)
    (hf : f .rereadEvent = false ∧ f .findPool = false ∧ f .markEvent = false ∧
      f .commitEvent = false)
    (hpending : ∃ e ∈ db.events, e.ID = ev.ID ∧ e.Processed = false)
    (hskip : (∀ r, parseTransfer ev ≠ .ok r) ∨
      ∃ fromAddr toAddr value, parseTransfer ev = .ok (fromAddr, toAddr, value) ∧
        ∀ a ∈ db.pool, a.Address ≠ lowerHex toAddr.val) :
    processEvent f db ev
      = ({ db with
            events := db.events.map
              (fun e => if e.ID = ev.ID then { e with Processed := true } else e) },
         none) := by
  obtain ⟨hr, hp, hm, hc⟩ := hf
  obtain ⟨e0, h1⟩ := rereadPending_some_of_pending f db ev.ID hr hpending
  have hmark : markProcessed ev.ID db.events
      = db.events.map (fun e => if e.ID = ev.ID then { e with Processed := true } else e) := by
    unfold markProcessed
    apply List.map_congr_left
    intro e _
    by_cases hid : e.ID = ev.ID <;> simp [hid]
  rcases hskip with hfail | ⟨fromAddr, toAddr, value, h2, hpool⟩
  · cases h2 : parseTransfer ev with
    | ok r => exact absurd h2 (hfail r)
    | error e =>
      simp [processEvent, processEventTx, h1, h2, markEventProcessedTx, hm, hc, hmark]
  · have h3 := findPoolRow_none_of_no_row f db _ hpool
    simp [processEvent, processEventTx, h1, h2, h3, markEventProcessedTx, hm, hc, hmark]

theorem processEvent_skips_uncredited_witness :
    (∃ e ∈ Scenario.approvalStore.events, e.ID = Scenario.approvalEvent.ID ∧ e.Processed = false) ∧
    parseTransfer Scenario.approvalEvent = .error "not transfer event" ∧
    processEvent Faults.none Scenario.approvalStore Scenario.approvalEvent
      = ({ Scenario.approvalStore with
            events := Scenario.approvalStore.events.map
              (fun e => if e.ID = Scenario.approvalEvent.ID then { e with Processed := true }
                else e) },
         none) :=
  ⟨by decide!, by decide!,
   processEvent_skips_uncredited Faults.none Scenario.approvalStore Scenario.approvalEvent
    ⟨rfl, rfl, rfl, rfl⟩ (by decide!)
    (Or.inl (fun r hr => by
      have h : parseTransfer Scenario.approvalEvent = .error "not transfer event" := by decide!
      rw [h] at hr
      cases hr))⟩

/-! ### Step controller rules -/

theorem Reachable.invariant {s : Scanner} (h : Reachable s) :
    MIN_STEP ≤ s.step ∧ s.step ≤ MAX_STEP ∧ 0 ≤ s.successCount ∧
      s.successCount < SUCCESS_THRESHOLD ∧ s.failureCount = 0 := by
  induction h with
  | init db => simp [NewScanner, MIN_STEP, MAX_STEP, INITIAL_STEP, SUCCESS_THRESHOLD]
  | success _ ih =>
    obtain ⟨h1, h2, h3, h4, h5⟩ := ih
    unfold adjustStepOnSuccess growStep
    simp only [MIN_STEP, MAX_STEP, SUCCESS_THRESHOLD] at *
    split_ifs <;> (simp_all; try omega)
  | failure _ ih =>
    obtain ⟨h1, h2, h3, h4, h5⟩ := ih
    unfold adjustStepOnFailure shrinkStep
    simp only [MIN_STEP, MAX_STEP, SUCCESS_THRESHOLD, FAILURE_THRESHOLD] at *
    split_ifs <;> (simp_all; try omega)
  | store db _ ih => exact ih

/-- C16: `adjustStepOnSuccess` sets `failure_count` to 0 and leaves the database
alone; when the incremented `success_count` reaches `SUCCESS_THRESHOLD = 5` it
sets `step` to `min(MAX_STEP, floor(step × 1.5))` and `success_count` to 0;
otherwise it stores the incremented `success_count` and leaves `step`
unchanged. The step is taken within its upper bound, as it is in every state
the scanner reaches. Five successes in a row from step 25 give step 37. -/
theorem adjustStepOnSuccess_rule (s : Scanner) (h : s.step ≤ MAX_STEP) :
    (adjustStepOnSuccess s).failureCount = 0 ∧ (adjustStepOnSuccess s).db = s.db ∧
    (s.successCount + 1 ≥ SUCCESS_THRESHOLD →
      (adjustStepOnSuccess s).step = min MAX_STEP (s.step * 3 / 2) ∧
      (adjustStepOnSuccess s).successCount = 0) ∧
    (s.successCount + 1 < SUCCESS_THRESHOLD →
      (adjustStepOnSuccess s).step = s.step ∧
      (adjustStepOnSuccess s).successCount = s.successCount + 1) ∧
    SUCCESS_THRESHOLD = 5 ∧
    (∀ db : Store, (Scanner.notifyAll
        { db := db, step := 25, successCount := 0, failureCount := 0 }
        [.success, .success, .success, .success, .success]).step = 37) := by
  unfold adjustStepOnSuccess growStep
  simp only [MAX_STEP, SUCCESS_THRESHOLD] at *
  refine ⟨?_, ?_, ?_, ?_, trivial, ?_⟩
  · split_ifs <;> rfl
  · split_ifs <;> rfl
  · intro hk
    split_ifs <;> (simp_all; try omega)
  · intro hk
    split_ifs <;> (simp_all; try omega)
  · intro db
    simp [Scanner.notifyAll, Scanner.notify, NewScanner, INITIAL_STEP, adjustStepOnSuccess, adjustStepOnFailure, growStep, shrinkStep, MIN_STEP, MAX_STEP, SUCCESS_THRESHOLD, FAILURE_THRESHOLD]

theorem adjustStepOnSuccess_rule_witness :
    Scenario.fourSuccesses.step ≤ MAX_STEP ∧
    ((adjustStepOnSuccess Scenario.fourSuccesses).failureCount = 0 ∧
    (adjustStepOnSuccess Scenario.fourSuccesses).db = Scenario.fourSuccesses.db ∧
    (Scenario.fourSuccesses.successCount + 1 ≥ SUCCESS_THRESHOLD →
      (adjustStepOnSuccess Scenario.fourSuccesses).step
        = min MAX_STEP (Scenario.fourSuccesses.step * 3 / 2) ∧
      (adjustStepOnSuccess Scenario.fourSuccesses).successCount = 0) ∧
    (Scenario.fourSuccesses.successCount + 1 < SUCCESS_THRESHOLD →
      (adjustStepOnSuccess Scenario.fourSuccesses).step = Scenario.fourSuccesses.step ∧
      (adjustStepOnSuccess Scenario.fourSuccesses).successCount
        = Scenario.fourSuccesses.successCount + 1) ∧
    SUCCESS_THRESHOLD = 5 ∧
    (∀ db : Store, (Scanner.notifyAll
        { db := db, step := 25, successCount := 0, failureCount := 0 }
        [.success, .success, .success, .success, .success]).step = 37)) :=
  ⟨by decide, adjustStepOnSuccess_rule Scenario.fourSuccesses (by decide)⟩

/-- C17: `adjustStepOnFailure` sets `success_count` to 0 and leaves the database
alone; the incremented `failure_count` reaches `FAILURE_THRESHOLD = 1` on every
failure, so each call sets `step` to `max(MIN_STEP, floor(step × 0.5))` and
`failure_count` to 0. The step is taken within its lower bound and the counter
non-negative, as they are in every state the scanner reaches. Three failures
from step 200 give 100, 50, 25. -/
theorem adjustStepOnFailure_rule (s : Scanner) (h : MIN_STEP ≤ s.step)
    (hc : 0 ≤ s.failureCount) :
    (adjustStepOnFailure s).successCount = 0 ∧ (adjustStepOnFailure s).db = s.db ∧
    s.failureCount + 1 ≥ FAILURE_THRESHOLD ∧
    (adjustStepOnFailure s).step = max MIN_STEP (s.step / 2) ∧
    (adjustStepOnFailure s).failureCount = 0 ∧
    FAILURE_THRESHOLD = 1 ∧
    (∀ db : Store,
      ((NewScanner db).notifyAll [.failure]).step = 100 ∧
      ((NewScanner db).notifyAll [.failure, .failure]).step = 50 ∧
      ((NewScanner db).notifyAll [.failure, .failure, .failure]).step = 25) := by
  unfold adjustStepOnFailure shrinkStep
  simp only [MIN_STEP, FAILURE_THRESHOLD] at *
  refine ⟨?_, ?_, by omega, ?_, ?_, trivial, ?_⟩
  · split_ifs <;> rfl
  · split_ifs <;> rfl
  · split_ifs <;> (simp_all; try omega)
  · split_ifs <;> (simp_all; try omega)
  · intro db
    simp [Scanner.notifyAll, Scanner.notify, NewScanner, INITIAL_STEP, adjustStepOnSuccess, adjustStepOnFailure, growStep, shrinkStep, MIN_STEP, MAX_STEP, SUCCESS_THRESHOLD, FAILURE_THRESHOLD]

theorem adjustStepOnFailure_rule_witness :
    MIN_STEP ≤ Scenario.fourSuccesses.step ∧ 0 ≤ Scenario.fourSuccesses.failureCount ∧
    ((adjustStepOnFailure Scenario.fourSuccesses).successCount = 0 ∧
    (adjustStepOnFailure Scenario.fourSuccesses).db = Scenario.fourSuccesses.db ∧
    Scenario.fourSuccesses.failureCount + 1 ≥ FAILURE_THRESHOLD ∧
    (adjustStepOnFailure Scenario.fourSuccesses).step
      = max MIN_STEP (Scenario.fourSuccesses.step / 2) ∧
    (adjustStepOnFailure Scenario.fourSuccesses).failureCount = 0 ∧
    FAILURE_THRESHOLD = 1 ∧
    (∀ db : Store,
      ((NewScanner db).notifyAll [.failure]).step = 100 ∧
      ((NewScanner db).notifyAll [.failure, .failure]).step = 50 ∧
      ((NewScanner db).notifyAll [.failure, .failure, .failure]).step = 25)) :=
  ⟨by decide, by decide,
   adjustStepOnFailure_rule Scenario.fourSuccesses (by decide) (by decide)⟩

/-- C18: from every reachable scanner state with `step < MAX_STEP`, after
`SUCCESS_THRESHOLD = 5` calls of `adjustStepOnSuccess` in a row the step is
strictly greater than before those calls. -/
theorem five_successes_grow (s : Scanner) (hr : Reachable s) (hlt : s.step < MAX_STEP) :
    s.step < (s.notifyAll [.success, .success, .success, .success, .success]).step ∧
      SUCCESS_THRESHOLD = 5 := by
  obtain ⟨h1, h2, h3, h4, h5⟩ := hr.invariant
  refine ⟨?_, rfl⟩
  obtain ⟨db, step, sc, fc⟩ := s
  simp only [MIN_STEP, MAX_STEP, SUCCESS_THRESHOLD] at *
  have hk : sc = 0 ∨ sc = 1 ∨ sc = 2 ∨ sc = 3 ∨ sc = 4 := by omega
  rcases hk with rfl | rfl | rfl | rfl | rfl <;>
    simp [Scanner.notifyAll, Scanner.notify, adjustStepOnSuccess, growStep, MAX_STEP,
      SUCCESS_THRESHOLD] <;>
    split_ifs <;> (try dsimp only) <;> omega

theorem five_successes_grow_witness :
    Reachable (NewScanner Store.empty) ∧ (NewScanner Store.empty).step < MAX_STEP ∧
    (NewScanner Store.empty).step <
      ((NewScanner Store.empty).notifyAll [.success, .success, .success, .success, .success]).step ∧
      SUCCESS_THRESHOLD = 5 :=
  ⟨Reachable.init _, by decide,
   five_successes_grow (NewScanner Store.empty) (Reachable.init _) (by decide)⟩

/-! ### Deposit rows, atomicity and the address pool -/

theorem digitChar_isDigit (k : Nat) (h : k < 10) :
    (Nat.digitChar k).isDigit = true ∧ (Nat.digitChar k).toNat - 48 = k := by
  interval_cases k <;> decide

theorem toDigitsCore_all_digits (fuel n : Nat) (ds : List Char)
    (hds : ds.all Char.isDigit = true) :
    (Nat.toDigitsCore 10 fuel n ds).all Char.isDigit = true := by
  induction fuel generalizing n ds with
  | zero => simpa [Nat.toDigitsCore] using hds
  | succ fuel ih =>
    have hd := (digitChar_isDigit (n % 10) (Nat.mod_lt _ (by decide))).1
    unfold Nat.toDigitsCore
    simp only
    split_ifs
    · simp only [List.all_cons, hd, hds, Bool.and_self]
    · apply ih
      simp only [List.all_cons, hd, hds, Bool.and_self]

theorem toDigitsCore_ne_nil (fuel n : Nat) (ds : List Char) (hf : 0 < fuel) :
    Nat.toDigitsCore 10 fuel n ds ≠ [] := by
  induction fuel generalizing n ds with
  | zero => omega
  | succ fuel ih =>
    unfold Nat.toDigitsCore
    simp only
    split_ifs
    · simp
    · cases fuel with
      | zero => simp [Nat.toDigitsCore]
      | succ k => exact ih _ _ (Nat.succ_pos _)

theorem toDigitsCore_value (fuel n : Nat) (ds : List Char) (hf : n < fuel) :
    (Nat.toDigitsCore 10 fuel n ds).foldl (fun m c => m * 10 + (c.toNat - 48)) 0
      = ds.foldl (fun m c => m * 10 + (c.toNat - 48)) n := by
  induction fuel generalizing n ds with
  | zero => omega
  | succ fuel ih =>
    have hd := (digitChar_isDigit (n % 10) (Nat.mod_lt _ (by decide))).2
    unfold Nat.toDigitsCore
    simp only
    split_ifs with h0
    · have hn : n % 10 = n := by omega
      simp only [List.foldl_cons, hd, Nat.zero_mul, Nat.zero_add]
      rw [hn]
    · have hlt : n / 10 < fuel := by omega
      rw [ih (n / 10) _ hlt]
      simp only [List.foldl_cons, hd]
      have : n / 10 * 10 + n % 10 = n := by omega
      rw [this]

theorem decimalValue_repr (n : Nat) : decimalValue (Nat.repr n) = some n := by
  have hdata : (Nat.repr n).data = Nat.toDigitsCore 10 (n + 1) n [] := rfl
  unfold decimalValue
  rw [hdata]
  have h1 := toDigitsCore_ne_nil (n + 1) n [] (Nat.succ_pos _)
  have h2 := toDigitsCore_all_digits (n + 1) n [] (by simp)
  have h3 := toDigitsCore_value (n + 1) n [] (Nat.lt_succ_self _)
  simp only [List.foldl_nil] at h3
  rw [if_neg (by simp [h1, h2]), h3]

/-- What `processEvent` can do to the store: nothing; or mark the event; or, for
a decoded Transfer with a pool row and no duplicate, insert the deposit, mark
the event and set the pool row used. The last two happen only when no write
fails. -/
theorem processEvent_outcome (f : Faults) (db : Store) (ev : OnchainEvent) :
    (processEvent f db ev).1 = db ∨
    ((processEvent f db ev).2 = none ∧ f .markEvent = false ∧ f .commitEvent = false ∧
      (processEvent f db ev).1 = { db with events := markProcessed ev.ID db.events }) ∨
    (∃ fromAddr toAddr value ap,
      parseTransfer ev = .ok (fromAddr, toAddr, value) ∧
      findPoolRow f db (lowerHex toAddr.val) = some ap ∧
      (processEvent f db ev).2 = none ∧
      f .createDeposit = false ∧ f .markEvent = false ∧ f .commitEvent = false ∧
      (processEvent f db ev).1 =
        { db with
          events := markProcessed ev.ID db.events
          deposits := db.deposits ++ [depositOf db.depositSeq ev toAddr ap value]
          depositSeq := db.depositSeq + 1
          pool := if (ap.ID != 0 && !ap.Used) = true then savePoolUsed ap db.pool else db.pool }) := by
  cases h1 : rereadPending f db ev.ID with
  | none =>
    left
    simp only [processEvent, processEventTx, h1]
    split_ifs <;> rfl
  | some e0 =>
    by_cases hm : f .markEvent = true
    · left
      cases h2 : parseTransfer ev with
      | error e => simp [processEvent, processEventTx, h1, h2, markEventProcessedTx, hm]
      | ok r =>
        obtain ⟨fromAddr, toAddr, value⟩ := r
        cases h3 : findPoolRow f db (lowerHex toAddr.val) with
        | none =>
          simp only [processEvent, processEventTx, h1, h2, h3, markEventProcessedTx, hm, if_true]
          split_ifs <;> rfl
        | some ap =>
          cases h4 : findDuplicate f db ev.TxHash (lowerHex toAddr.val) with
          | some d => simp [processEvent, processEventTx, h1, h2, h3, h4, markEventProcessedTx, hm]
          | none =>
            by_cases hd : f .createDeposit = true
            · simp [processEvent, processEventTx, h1, h2, h3, h4, hd]
            · simp [processEvent, processEventTx, h1, h2, h3, h4, hd, markEventProcessedTx, hm]
    by_cases hc : f .commitEvent = true
    · left
      simp only [processEvent]
      rcases hr : processEventTx f db ev with ⟨tx, _ | e⟩
      · simp [hc]
      · simp
    have hm' : f .markEvent = false := by simpa using hm
    have hc' : f .commitEvent = false := by simpa using hc
    cases h2 : parseTransfer ev with
    | error e =>
      right; left
      simp [processEvent, processEventTx, h1, h2, markEventProcessedTx, hm', hc']
    | ok r =>
      obtain ⟨fromAddr, toAddr, value⟩ := r
      cases h3 : findPoolRow f db (lowerHex toAddr.val) with
      | none =>
        right; left
        simp [processEvent, processEventTx, h1, h2, h3, markEventProcessedTx, hm', hc']
      | some ap =>
        cases h4 : findDuplicate f db ev.TxHash (lowerHex toAddr.val) with
        | some d =>
          right; left
          simp [processEvent, processEventTx, h1, h2, h3, h4, markEventProcessedTx, hm', hc']
        | none =>
          by_cases hd : f .createDeposit = true
          · left
            simp [processEvent, processEventTx, h1, h2, h3, h4, hd]
          have hd' : f .createDeposit = false := by simpa using hd
          by_cases hu : (ap.ID != 0 && !ap.Used) = true
          · by_cases hs : f .savePool = true
            · left
              simp [processEvent, processEventTx, h1, h2, h3, h4, hd', hm', hu, hs,
                markEventProcessedTx]
            · right; right
              refine ⟨fromAddr, toAddr, value, ap, rfl, h3, ?_, hd', hm', hc', ?_⟩ <;>
                simp [processEvent, processEventTx, h1, h2, h3, h4, hd', hm', hu, hs, hc',
                  markEventProcessedTx]
          · right; right
            refine ⟨fromAddr, toAddr, value, ap, rfl, h3, ?_, hd', hm', hc', ?_⟩ <;>
              simp [processEvent, processEventTx, h1, h2, h3, h4, hd', hm', hu, hc',
                markEventProcessedTx]

theorem fetchPendingEvents_chain (db : Store) (limit : Nat) (ev : OnchainEvent)
    (h : ev ∈ fetchPendingEvents db limit) : ev.Chain = PROCESS_CHAIN ∧ ev.Processed = false := by
  unfold fetchPendingEvents at h
  have h1 := List.mem_of_mem_take h
  rw [(List.perm_insertionSort _ _).mem_iff, List.mem_filter] at h1
  simpa using h1.2

/-- C11: every Deposit inserted by `processEvent` has `token` = the address of
the source event, `to_address` = the lowercase hex text of the decoded
destination, which is the address of the matched pool row, `user_id` = that of
the pool row, `amount` = the base-10 text of the decoded value, which reads
back as exactly that value, `tx_hash` and `block_number` copied from the
event, `chain` = `PROCESS_CHAIN`, which is the chain of every event that
`fetchPendingEvents` hands to `processEvent`, and `confirmed = true`. -/
theorem inserted_deposit_fields (f : Faults) (db : Store) (ev : OnchainEvent)
    (h : (processEvent f db ev).1.deposits ≠ db.deposits) :
    ∃ fromAddr toAddr value ap d,
      parseTransfer ev = .ok (fromAddr, toAddr, value) ∧
      ap ∈ db.pool ∧ ap.Address = lowerHex toAddr.val ∧
      (processEvent f db ev).1.deposits = db.deposits ++ [d] ∧
      d.Token = some ev.Address ∧
      d.ToAddress = lowerHex toAddr.val ∧ d.ToAddress = ap.Address ∧
      d.UserID = ap.UserID ∧
      d.Amount = Nat.repr value ∧ decimalValue d.Amount = some value ∧
      d.TxHash = ev.TxHash ∧ d.BlockNumber = ev.BlockNumber ∧
      d.Chain = PROCESS_CHAIN ∧
      (∀ (db0 : Store) (limit : Nat), ev ∈ fetchPendingEvents db0 limit → d.Chain = ev.Chain) ∧
      d.Confirmed = true := by
  rcases processEvent_outcome f db ev with h0 | ⟨_, _, _, h0⟩ |
    ⟨fromAddr, toAddr, value, ap, hp, hpool, _, _, _, _, h0⟩
  · exact absurd (by rw [h0]) h
  · exact absurd (by rw [h0]) h
  · obtain ⟨hap, haddr⟩ := findPoolRow_some f db _ ap hpool
    refine ⟨fromAddr, toAddr, value, ap, depositOf db.depositSeq ev toAddr ap value, hp, hap,
      haddr, by rw [h0], rfl, rfl, haddr.symm, rfl, rfl, decimalValue_repr value, rfl, rfl, rfl,
      ?_, rfl⟩
    intro db0 limit hev
    exact (fetchPendingEvents_chain db0 limit ev hev).1.symm

theorem inserted_deposit_fields_witness :
    (processEvent Faults.none Scenario.twoTransfers Scenario.firstTransfer).1.deposits
        ≠ Scenario.twoTransfers.deposits ∧
    ∃ fromAddr toAddr value ap d,
      parseTransfer Scenario.firstTransfer = .ok (fromAddr, toAddr, value) ∧
      ap ∈ Scenario.twoTransfers.pool ∧ ap.Address = lowerHex toAddr.val ∧
      (processEvent Faults.none Scenario.twoTransfers Scenario.firstTransfer).1.deposits
        = Scenario.twoTransfers.deposits ++ [d] ∧
      d.Token = some Scenario.firstTransfer.Address ∧
      d.ToAddress = lowerHex toAddr.val ∧ d.ToAddress = ap.Address ∧
      d.UserID = ap.UserID ∧
      d.Amount = Nat.repr value ∧ decimalValue d.Amount = some value ∧
      d.TxHash = Scenario.firstTransfer.TxHash ∧
      d.BlockNumber = Scenario.firstTransfer.BlockNumber ∧
      d.Chain = PROCESS_CHAIN ∧
      (∀ (db0 : Store) (limit : Nat),
        Scenario.firstTransfer ∈ fetchPendingEvents db0 limit →
        d.Chain = Scenario.firstTransfer.Chain) ∧
      d.Confirmed = true :=
  ⟨by decide!, inserted_deposit_fields Faults.none Scenario.twoTransfers Scenario.firstTransfer
    (by decide!)⟩

/-- C12: `processEvent` is atomic. Whenever it returns an error the store after
the call is the store before it; a failing mark-processed update or a failing
commit leaves the store as it was on every path; and on the path that inserts
a deposit (event pending, Transfer decoded, pool row found, no duplicate) a
failing deposit insert, mark-processed update or address-pool save makes the
call return an error with the store unchanged, so the event keeps
`processed = false` and no Deposit is added. -/
theorem processEvent_atomic (f : Faults) (db : Store) (ev : OnchainEvent) :
    ((processEvent f db ev).2 ≠ none → (processEvent f db ev).1 = db) ∧
    (f .markEvent = true → (processEvent f db ev).1 = db) ∧
    (f .commitEvent = true → (processEvent f db ev).1 = db) ∧
    (∀ e0 fromAddr toAddr value ap,
      rereadPending f db ev.ID = some e0 →
      parseTransfer ev = .ok (fromAddr, toAddr, value) →
      findPoolRow f db (lowerHex toAddr.val) = some ap →
      findDuplicate f db ev.TxHash (lowerHex toAddr.val) = none →
      (f .createDeposit = true ∨ f .markEvent = true ∨
        (f .savePool = true ∧ ap.ID ≠ 0 ∧ ap.Used = false)) →
      (processEvent f db ev).2 ≠ none ∧ (processEvent f db ev).1 = db) := by
  refine ⟨?_, ?_, ?_, ?_⟩
  · intro herr
    simp only [processEvent] at herr ⊢
    rcases hr : processEventTx f db ev with ⟨tx, _ | e⟩
    · rw [hr] at herr
      by_cases hc : f .commitEvent = true
      · simp [hc]
      · simp [hc] at herr
    · simp
  · intro hm
    rcases processEvent_outcome f db ev with h0 | ⟨_, hm', _, _⟩ |
      ⟨_, _, _, _, _, _, _, _, hm', _, _⟩
    · exact h0
    · rw [hm] at hm'; cases hm'
    · rw [hm] at hm'; cases hm'
  · intro hc
    rcases processEvent_outcome f db ev with h0 | ⟨_, _, hc', _⟩ |
      ⟨_, _, _, _, _, _, _, _, _, hc', _⟩
    · exact h0
    · rw [hc] at hc'; cases hc'
    · rw [hc] at hc'; cases hc'
  · intro e0 fromAddr toAddr value ap h1 h2 h3 h4 hfail
    by_cases hd : f .createDeposit = true
    · simp [processEvent, processEventTx, h1, h2, h3, h4, hd]
    by_cases hm : f .markEvent = true
    · simp [processEvent, processEventTx, h1, h2, h3, h4, hd, hm, markEventProcessedTx]
    rcases hfail with h | h | ⟨hs, hid, hused⟩
    · exact absurd h hd
    · exact absurd h hm
    · simp [processEvent, processEventTx, h1, h2, h3, h4, hd, hm, hs, hid, hused,
        markEventProcessedTx]

theorem savePoolUsed_of_nodup (ap : AddressPool) (pool : List AddressPool)
    (hkey : (pool.map (fun a => a.ID)).Nodup) (hap : ap ∈ pool) :
    savePoolUsed ap pool = pool.map (fun a => if a = ap then { a with Used := true } else a) := by
  unfold savePoolUsed
  apply List.map_congr_left
  intro a ha
  by_cases hid : a.ID = ap.ID
  · have : a = ap := List.inj_on_of_nodup_map hkey ha hap hid
    subst this
    simp
  · have hne : a ≠ ap := fun h => hid (by rw [h])
    simp [hid, hne]

/-- C13: `processEvent` preserves the AddressPool invariant, the primary keys of
the pool being distinct. The pool after the call has the same rows in the same
order with the same id, chain, address and user_id (none inserted, none
deleted); no row goes from `used = true` to `used = false`; and either the
pool is unchanged, or a deposit was inserted and the one change is
`used false → true` on the pool row matched by that deposit. -/
theorem processEvent_pool_invariant (f : Faults) (db : Store) (ev : OnchainEvent)
    (hkey : (db.pool.map (fun a => a.ID)).Nodup) :
    (processEvent f db ev).1.pool.map (fun a => (a.ID, a.Chain, a.Address, a.UserID))
      = db.pool.map (fun a => (a.ID, a.Chain, a.Address, a.UserID)) ∧
    (∀ (i : Nat) (a a' : AddressPool), db.pool[i]? = some a →
      (processEvent f db ev).1.pool[i]? = some a' → a.Used = true → a'.Used = true) ∧
    ((processEvent f db ev).1.pool = db.pool ∨
      ∃ ap d, ap ∈ db.pool ∧ ap.Used = false ∧
        (processEvent f db ev).1.deposits = db.deposits ++ [d] ∧
        d.ToAddress = ap.Address ∧ d.UserID = ap.UserID ∧
        (processEvent f db ev).1.pool
          = db.pool.map (fun a => if a = ap then { a with Used := true } else a)) := by
  have hsame : ∀ p : List AddressPool, p = db.pool →
      p.map (fun a => (a.ID, a.Chain, a.Address, a.UserID))
        = db.pool.map (fun a => (a.ID, a.Chain, a.Address, a.UserID)) ∧
      (∀ (i : Nat) (a a' : AddressPool), db.pool[i]? = some a → p[i]? = some a' →
        a.Used = true → a'.Used = true) := by
    intro p hp
    subst hp
    refine ⟨rfl, ?_⟩
    intro i a a' h1 h2 hu
    rw [h1] at h2
    cases h2
    exact hu
  rcases processEvent_outcome f db ev with h0 | ⟨_, _, _, h0⟩ |
    ⟨fromAddr, toAddr, value, ap, hp, hpool, _, _, _, _, h0⟩
  · have hp : (processEvent f db ev).1.pool = db.pool := by rw [h0]
    exact ⟨(hsame _ hp).1, (hsame _ hp).2, Or.inl hp⟩
  · have hp : (processEvent f db ev).1.pool = db.pool := by rw [h0]
    exact ⟨(hsame _ hp).1, (hsame _ hp).2, Or.inl hp⟩
  · obtain ⟨hap, haddr⟩ := findPoolRow_some f db _ ap hpool
    by_cases hu : (ap.ID != 0 && !ap.Used) = true
    · have hused : ap.Used = false := by
        simp only [Bool.and_eq_true, Bool.not_eq_true'] at hu
        exact hu.2
      have hp : (processEvent f db ev).1.pool
          = db.pool.map (fun a => if a = ap then { a with Used := true } else a) := by
        rw [h0]
        simp only [hu, if_true]
        exact savePoolUsed_of_nodup ap db.pool hkey hap
      refine ⟨?_, ?_, Or.inr ⟨ap, depositOf db.depositSeq ev toAddr ap value, hap, hused,
        by rw [h0], haddr.symm, rfl, hp⟩⟩
      · rw [hp, List.map_map]
        apply List.map_congr_left
        intro a _
        simp only [Function.comp]
        split_ifs <;> rfl
      · intro i a a' h1 h2 hua
        rw [hp, List.getElem?_map, h1] at h2
        simp only [Option.map_some', Option.some.injEq] at h2
        rw [← h2]
        split_ifs
        · rfl
        · exact hua
    · have hp : (processEvent f db ev).1.pool = db.pool := by
        rw [h0]
        simp only [hu, Bool.false_eq_true, if_false]
      exact ⟨(hsame _ hp).1, (hsame _ hp).2, Or.inl hp⟩

theorem processEvent_pool_invariant_witness :
    (Scenario.twoTransfers.pool.map (fun a => a.ID)).Nodup ∧
    ((processEvent Faults.none Scenario.twoTransfers Scenario.firstTransfer).1.pool.map
        (fun a => (a.ID, a.Chain, a.Address, a.UserID))
      = Scenario.twoTransfers.pool.map (fun a => (a.ID, a.Chain, a.Address, a.UserID)) ∧
    (∀ (i : Nat) (a a' : AddressPool), Scenario.twoTransfers.pool[i]? = some a →
      (processEvent Faults.none Scenario.twoTransfers Scenario.firstTransfer).1.pool[i]? = some a' →
      a.Used = true → a'.Used = true) ∧
    ((processEvent Faults.none Scenario.twoTransfers Scenario.firstTransfer).1.pool
        = Scenario.twoTransfers.pool ∨
      ∃ ap d, ap ∈ Scenario.twoTransfers.pool ∧ ap.Used = false ∧
        (processEvent Faults.none Scenario.twoTransfers Scenario.firstTransfer).1.deposits
          = Scenario.twoTransfers.deposits ++ [d] ∧
        d.ToAddress = ap.Address ∧ d.UserID = ap.UserID ∧
        (processEvent Faults.none Scenario.twoTransfers Scenario.firstTransfer).1.pool
          = Scenario.twoTransfers.pool.map
              (fun a => if a = ap then { a with Used := true } else a))) :=
  ⟨by decide!, processEvent_pool_invariant Faults.none Scenario.twoTransfers
    Scenario.firstTransfer (by decide!)⟩

/-! ### Reorg detection -/

theorem reorgLoop_all_match (f : Faults) (c : ChainClient) (db : Store)
    (pbs : List ProcessedBlock)
    (h : ∀ pb ∈ pbs, ∀ hd, c.HeaderByNumber (some pb.BlockNumber) = .ok hd → hd.Hash = pb.BlockHash) :
    reorgLoop f c db pbs = (db, none) := by
  induction pbs with
  | nil => rfl
  | cons pb pbs ih =>
    have ih' := ih (fun q hq => h q (List.mem_cons_of_mem _ hq))
    unfold reorgLoop
    cases hh : c.HeaderByNumber (some pb.BlockNumber) with
    | error e => simpa using ih'
    | ok hd =>
      have := h pb (List.mem_cons_self _ _) hd hh
      simpa [this] using ih'

theorem reorgLoop_first_mismatch (f : Faults) (c : ChainClient) (db : Store)
    (pre : List ProcessedBlock) (r : ProcessedBlock) (post : List ProcessedBlock) (header : Header)
    (hpre : ∀ pb ∈ pre, ∀ hd, c.HeaderByNumber (some pb.BlockNumber) = .ok hd →
      hd.Hash = pb.BlockHash)
    (hr : c.HeaderByNumber (some r.BlockNumber) = .ok header) (hne : header.Hash ≠ r.BlockHash) :
    reorgLoop f c db (pre ++ r :: post) = rollbackToBlock f db (r.BlockNumber - 1) := by
  induction pre with
  | nil =>
    simp only [List.nil_append]
    unfold reorgLoop
    simp [hr, hne]
  | cons pb pre ih =>
    have ih' := ih (fun q hq => hpre q (List.mem_cons_of_mem _ hq))
    simp only [List.cons_append]
    unfold reorgLoop
    cases hh : c.HeaderByNumber (some pb.BlockNumber) with
    | error e => simpa using ih'
    | ok hd =>
      have := hpre pb (List.mem_cons_self _ _) hd hh
      simpa [this] using ih'

/-- C14, as stated, fails: in `staleBelowHead` the newest row (block 10) is
resolvable and its stored hash is the canonical one, yet the scan goes on to
the older rows, meets the mismatch at block 9 and rolls back to block 8: the
rows of blocks 9 and 10 are deleted. -/
theorem reorg_scan_continues_past_match :
    (recentBlocks Scenario.staleBelowHead).head?.map (fun r => (r.BlockNumber, r.BlockHash))
      = some (10, "0xba") ∧
    (Scenario.reorgedClient.HeaderByNumber (some 10)).toOption.map (fun h => h.Hash)
      = some "0xba" ∧
    (detectAndHandleReorg Faults.none Scenario.reorgedClient Scenario.staleBelowHead).2 = none ∧
    (detectAndHandleReorg Faults.none Scenario.reorgedClient
      Scenario.staleBelowHead).1.blocks.map (fun r => r.BlockNumber)
      = [1, 2, 3, 4, 5, 6, 7, 8] := by
  decide!

/-- C14, amended: in `detectAndHandleReorg`, scanning the loaded ProcessedBlock
rows newest to oldest and skipping rows whose header cannot be resolved, if
every resolvable row's stored hash matches the canonical hash then no rollback
is performed: the store is unchanged and, the rows having been loaded, no
error is returned. A match does not stop the scan. -/
theorem reorg_no_mismatch_no_rollback (f : Faults) (c : ChainClient) (db : Store)
    (h : ∀ pb ∈ recentBlocks db, ∀ hd,
      c.HeaderByNumber (some pb.BlockNumber) = .ok hd → hd.Hash = pb.BlockHash) :
    (detectAndHandleReorg f c db).1 = db ∧
      (f .findBlocks = false → (detectAndHandleReorg f c db).2 = none) := by
  unfold detectAndHandleReorg
  by_cases hf : f .findBlocks = true
  · simp [hf]
  · simp only [hf, Bool.false_eq_true, if_false]
    split_ifs
    · exact ⟨rfl, fun _ => rfl⟩
    · rw [reorgLoop_all_match f c db _ h]
      exact ⟨rfl, fun _ => rfl⟩

theorem reorg_no_mismatch_no_rollback_witness :
    (∀ pb ∈ recentBlocks Scenario.tenBlocks,
      (Scenario.unchangedClient.HeaderByNumber (some pb.BlockNumber)).toOption.map
        (fun h => h.Hash) = some pb.BlockHash) ∧
    (detectAndHandleReorg Faults.none Scenario.unchangedClient Scenario.tenBlocks).1
      = Scenario.tenBlocks ∧
    (Faults.none .findBlocks = false →
      (detectAndHandleReorg Faults.none Scenario.unchangedClient Scenario.tenBlocks).2 = none) :=
  have key : ∀ pb ∈ recentBlocks Scenario.tenBlocks,
      (Scenario.unchangedClient.HeaderByNumber (some pb.BlockNumber)).toOption.map
        (fun h => h.Hash) = some pb.BlockHash := by decide!
  ⟨key, reorg_no_mismatch_no_rollback Faults.none Scenario.unchangedClient Scenario.tenBlocks
    (fun pb hpb hd hh => by
      have h := key pb hpb
      rw [hh] at h
      simpa [Except.toOption] using h)⟩

/-- C15: when the scan of `detectAndHandleReorg` meets its first mismatch at a
resolvable row `r` (the rows before it being unresolvable or matching), the
result is that of `rollbackToBlock` with pivot `r.block_number − 1`;
`rollbackToBlock pivot`, its delete not failing, keeps exactly the rows that
are not of this chain with `block_number > pivot`, in their order; and with no
stored row of this chain the detector leaves the store unchanged. -/
theorem reorg_pivot_and_rollback (f : Faults) :
    (∀ (c : ChainClient) (db : Store) (pre : List ProcessedBlock) (r : ProcessedBlock)
        (post : List ProcessedBlock) (header : Header),
      f .findBlocks = false → recentBlocks db = pre ++ r :: post →
      (∀ pb ∈ pre, ∀ hd, c.HeaderByNumber (some pb.BlockNumber) = .ok hd →
        hd.Hash = pb.BlockHash) →
      c.HeaderByNumber (some r.BlockNumber) = .ok header → header.Hash ≠ r.BlockHash →
      detectAndHandleReorg f c db = rollbackToBlock f db (r.BlockNumber - 1)) ∧
    (∀ (db : Store) (pivot : Int), f .deleteBlocks = false →
      (∀ row, row ∈ (rollbackToBlock f db pivot).1.blocks ↔
        row ∈ db.blocks ∧ ¬ (row.Chain = CHAIN ∧ row.BlockNumber > pivot)) ∧
      (rollbackToBlock f db pivot).1.blocks.Sublist db.blocks) ∧
    (∀ (c : ChainClient) (db : Store), (∀ row ∈ db.blocks, row.Chain ≠ CHAIN) →
      (detectAndHandleReorg f c db).1 = db) := by
  refine ⟨?_, ?_, ?_⟩
  · intro c db pre r post header hf hsplit hpre hr hne
    unfold detectAndHandleReorg
    simp only [hf, Bool.false_eq_true, if_false]
    rw [hsplit, reorgLoop_first_mismatch f c db pre r post header hpre hr hne]
    simp
  · intro db pivot hf
    have hb : (rollbackToBlock f db pivot).1.blocks
        = db.blocks.filter (fun r => !(r.Chain == CHAIN && decide (r.BlockNumber > pivot))) := by
      unfold rollbackToBlock
      simp only [hf, Bool.false_eq_true, if_false]
      split_ifs <;> rfl
    rw [hb]
    refine ⟨?_, List.filter_sublist _⟩
    intro row
    simp only [List.mem_filter, Bool.not_eq_true', Bool.and_eq_false_iff, beq_eq_false_iff_ne,
      decide_eq_false_iff_not, not_and, gt_iff_lt, not_lt, ne_eq, and_congr_right_iff]
    intro _
    by_cases hc : row.Chain = CHAIN <;> simp [hc]
  · intro c db hnone
    have hrecent : recentBlocks db = [] := by
      unfold recentBlocks
      have : db.blocks.filter (fun r => r.Chain == CHAIN) = [] := by
        rw [List.filter_eq_nil_iff]
        intro row hrow
        simpa using hnone row hrow
      rw [this]
      simp
    unfold detectAndHandleReorg
    split_ifs
    · rfl
    · simp [hrecent]

theorem reorg_pivot_and_rollback_witness :
    detectAndHandleReorg Faults.none Scenario.reorgedClient Scenario.tenBlocks
      = rollbackToBlock Faults.none Scenario.tenBlocks (10 - 1) :=
  (reorg_pivot_and_rollback Faults.none).1 Scenario.reorgedClient Scenario.tenBlocks []
    { ID := 10, Chain := CHAIN, BlockNumber := 10, BlockHash := Scenario.oldHash 10 }
    ((recentBlocks Scenario.tenBlocks).drop 1)
    { Number := 10, Hash := Scenario.newHash 10 }
    rfl (by decide!) (fun _ h => by cases h) (by decide!) (by decide!)

/-! ### Scanner tick -/

/-- C19: the ProcessedBlock table holds one row, of chain `polygon`, at block
1000, and no row of this chain; the head is 100, so `safe = 88`. By the claim
`last = 0`, `start = 1` and the range `[1, 88]` is requested.
`lastProcessedBlock` does not filter by chain and returns 1000, so
`start = 1001 > safe` and `stepOnce` returns without scanning: scanner and
store are unchanged. With an empty table the same tick scans `[1, 88]`. -/
theorem foreign_chain_row_stops_scan :
    Scenario.foreignChainBlock.blocks.filter (fun r => r.Chain == CHAIN) = [] ∧
    lastProcessedBlock Faults.none Scenario.foreignChainBlock = .ok 1000 ∧
    stepOnce Faults.none Scenario.busyClient (NewScanner Scenario.foreignChainBlock)
      = (NewScanner Scenario.foreignChainBlock, none) ∧
    (stepOnce Faults.none Scenario.busyClient (NewScanner Store.empty)).1.db.blocks.map
      (fun r => (r.Chain, r.BlockNumber)) = [("ethereum", 88)] ∧
    (stepOnce Faults.none Scenario.busyClient (NewScanner Store.empty)).1.db.events.length = 1 := by
  decide!

theorem foldl_max_ge (bs : List ProcessedBlock) (m : Int) :
    m ≤ bs.foldl (fun m r => max m r.BlockNumber) m ∧
    (∀ r ∈ bs, r.BlockNumber ≤ bs.foldl (fun m r => max m r.BlockNumber) m) ∧
    (bs.foldl (fun m r => max m r.BlockNumber) m = m ∨
      ∃ r ∈ bs, r.BlockNumber = bs.foldl (fun m r => max m r.BlockNumber) m) := by
  induction bs generalizing m with
  | nil => simp
  | cons b bs ih =>
    obtain ⟨h1, h2, h3⟩ := ih (max m b.BlockNumber)
    simp only [List.foldl_cons, List.mem_cons, forall_eq_or_imp, exists_eq_or_imp]
    refine ⟨le_trans (le_max_left _ _) h1, ⟨le_trans (le_max_right _ _) h1, h2⟩, ?_⟩
    rcases h3 with h3 | ⟨r, hr, h3⟩
    · rcases max_choice m b.BlockNumber with hm | hm
      · left; rw [h3, hm]
      · right; left; rw [h3, hm]
    · right; right; exact ⟨r, hr, h3⟩

theorem lastProcessedBlock_spec (f : Faults) (db : Store) (last : Int)
    (h : lastProcessedBlock f db = .ok last) :
    (∀ r ∈ db.blocks, r.BlockNumber ≤ last) ∧
    ((db.blocks = [] ∧ last = 0) ∨ ∃ r ∈ db.blocks, r.BlockNumber = last) ∧
    lastProcessedBlock Faults.none db = .ok last := by
  unfold lastProcessedBlock at h ⊢
  split_ifs at h
  simp only [Faults.none, Bool.false_eq_true, if_false]
  cases hb : db.blocks with
  | nil =>
    rw [hb] at h
    simp only [Except.ok.injEq] at h
    simp [h]
  | cons b bs =>
    rw [hb] at h
    simp only [Except.ok.injEq] at h
    obtain ⟨h1, h2, h3⟩ := foldl_max_ge bs b.BlockNumber
    rw [h] at h1 h2 h3
    refine ⟨?_, Or.inr ?_, by simp only [h]⟩
    · intro r hr
      rcases List.mem_cons.1 hr with rfl | hr
      · exact h1
      · exact h2 r hr
    · rcases h3 with h3 | ⟨r, hr, h3⟩
      · exact ⟨b, List.mem_cons_self _ _, h3.symm⟩
      · exact ⟨r, List.mem_cons_of_mem _ hr, h3⟩

theorem persistLogsLoop_blocks (f : Faults) (logs : List Log) (tx tx' : Store)
    (h : persistLogsLoop f tx logs = .ok tx') : tx'.blocks = tx.blocks := by
  induction logs generalizing tx with
  | nil =>
    simp only [persistLogsLoop, Except.ok.injEq] at h
    rw [h]
  | cons l ls ih =>
    unfold persistLogsLoop at h
    split_ifs at h
    have := ih _ h
    simpa using this

theorem persistLogs_blocks (f : Faults) (db : Store) (logs : List Log) :
    (persistLogs f db logs).1.blocks = db.blocks := by
  unfold persistLogs
  cases h : persistLogsLoop f db logs with
  | error e => rfl
  | ok tx =>
    simp only
    split_ifs
    · rfl
    · exact persistLogsLoop_blocks f logs db tx h

theorem adjustStepOnSuccess_db (s : Scanner) : (adjustStepOnSuccess s).db = s.db := by
  unfold adjustStepOnSuccess
  simp only
  split_ifs <;> rfl

theorem adjustStepOnFailure_db (s : Scanner) : (adjustStepOnFailure s).db = s.db := by
  unfold adjustStepOnFailure
  simp only
  split_ifs <;> rfl

theorem persistProcessedBlock_spec (f : Faults) (db : Store) (block : Int) (hash : String) :
    (persistProcessedBlock f db block hash).1 = db ∨
    ((persistProcessedBlock f db block hash).2 = none ∧
      (persistProcessedBlock f db block hash).1.blocks = db.blocks ++
        [{ ID := db.blockSeq, Chain := CHAIN, BlockNumber := block, BlockHash := hash }]) := by
  unfold persistProcessedBlock
  split_ifs
  · left; rfl
  · left; rfl
  · right; exact ⟨rfl, rfl⟩

/-- The ProcessedBlock table after a tick: unchanged, or extended by one row for
the end of the scanned range. -/
theorem stepOnce_blocks (f : Faults) (c : ChainClient) (s : Scanner) :
    (stepOnce f c s).1.db.blocks = s.db.blocks ∨
    ∃ header last id hash,
      c.HeaderByNumber none = .ok header ∧ CONFIRMATIONS < header.Number % 2 ^ 64 ∧
      lastProcessedBlock f s.db = .ok last ∧
      uint64OfInt (last + 1) ≤ header.Number % 2 ^ 64 - CONFIRMATIONS ∧
      (stepOnce f c s).1.db.blocks = s.db.blocks ++
        [{ ID := id, Chain := CHAIN
           BlockNumber := int64OfNat (minUint64
             ((uint64OfInt (last + 1) + s.step + (2 ^ 64 - 1)) % 2 ^ 64)
             (header.Number % 2 ^ 64 - CONFIRMATIONS))
           BlockHash := hash }] := by
  unfold stepOnce
  split
  · left; exact congrArg Store.blocks (adjustStepOnFailure_db s)
  · rename_i header hh
    try dsimp only
    split_ifs with hconf
    · left; rfl
    · split
      · left; exact congrArg Store.blocks (adjustStepOnFailure_db s)
      · rename_i last hl
        try dsimp only
        split_ifs with hstart
        · left; rfl
        · split
          · left; exact congrArg Store.blocks (adjustStepOnFailure_db s)
          · rename_i logs hlogs
            have hdb1 : (if logs.length > 0 then persistLogs f s.db logs
                else (s.db, none)).1.blocks = s.db.blocks := by
              split_ifs
              · exact persistLogs_blocks f s.db logs
              · rfl
            split
            · rename_i db1 e hp
              rw [hp] at hdb1
              left
              rw [adjustStepOnFailure_db]
              exact hdb1
            · rename_i db1 hp
              rw [hp] at hdb1
              simp only at hdb1
              split
              · left
                rw [adjustStepOnSuccess_db]
                exact hdb1
              · rename_i h2 hh2
                split
                · rename_i db2 e hpp
                  left
                  rw [adjustStepOnFailure_db]
                  rcases persistProcessedBlock_spec f db1 _ h2.Hash with hs | ⟨hn, _⟩
                  · rw [hpp] at hs
                    simp only at hs
                    rw [hs]
                    exact hdb1
                  · rw [hpp] at hn
                    cases hn
                · rename_i db2 hpp
                  rw [adjustStepOnSuccess_db]
                  rcases persistProcessedBlock_spec f db1 _ h2.Hash with hs | ⟨_, hs⟩
                  · left
                    rw [hpp] at hs
                    simp only at hs
                    rw [hs]
                    exact hdb1
                  · right
                    rw [hpp] at hs
                    simp only at hs
                    refine ⟨header, last, db1.blockSeq, h2.Hash, hh, Nat.lt_of_not_le hconf, hl,
                      Nat.le_of_not_lt hstart, ?_⟩
                    rw [hs, hdb1]

theorem scan_end_bounds (last : Int) (head step : Nat)
    (hlast : -(2 : Int) ^ 63 ≤ last ∧ last < (2 : Int) ^ 63) (hhead : head < 2 ^ 63)
    (hstep : MIN_STEP ≤ step ∧ step ≤ MAX_STEP) (hconf : CONFIRMATIONS < head % 2 ^ 64)
    (hstart : uint64OfInt (last + 1) ≤ head % 2 ^ 64 - CONFIRMATIONS) :
    last < int64OfNat (minUint64 ((uint64OfInt (last + 1) + step + (2 ^ 64 - 1)) % 2 ^ 64)
        (head % 2 ^ 64 - CONFIRMATIONS)) ∧
    int64OfNat (minUint64 ((uint64OfInt (last + 1) + step + (2 ^ 64 - 1)) % 2 ^ 64)
        (head % 2 ^ 64 - CONFIRMATIONS)) ≤ (head : Int) - (CONFIRMATIONS : Int) := by
  unfold uint64OfInt int64OfNat minUint64 at *
  simp only [MIN_STEP, MAX_STEP, CONFIRMATIONS] at *
  norm_num at *
  split_ifs <;> omega

theorem lastProcessedBlock_congr (db db' : Store) (h : db'.blocks = db.blocks) :
    lastProcessedBlock Faults.none db' = lastProcessedBlock Faults.none db := by
  unfold lastProcessedBlock
  rw [h]

/-- C20: the scanner cursor is monotone. For every scanner state the program
reaches, every store whose block numbers are `int64` values, every chain
client whose head number fits an `int64` and every outcome of the database
calls, the greatest `block_number` of ProcessedBlock after `stepOnce` is at
least what it was before; and the tick either leaves the ProcessedBlock table
as it was or appends one row whose `block_number` is strictly greater than
that of every row present before and at most `head − CONFIRMATIONS`. -/
theorem stepOnce_cursor_monotone (f : Faults) (c : ChainClient) (s : Scanner)
    (hr : Reachable s)
    (hrows : ∀ r ∈ s.db.blocks, -(2 : Int) ^ 63 ≤ r.BlockNumber ∧ r.BlockNumber < (2 : Int) ^ 63)
    (hhead : ∀ header, c.HeaderByNumber none = .ok header → header.Number < 2 ^ 63) :
    (∀ m m', lastProcessedBlock Faults.none s.db = .ok m →
      lastProcessedBlock Faults.none (stepOnce f c s).1.db = .ok m' → m ≤ m') ∧
    ((stepOnce f c s).1.db.blocks = s.db.blocks ∨
      ∃ row header, c.HeaderByNumber none = .ok header ∧
        (stepOnce f c s).1.db.blocks = s.db.blocks ++ [row] ∧
        (∀ r ∈ s.db.blocks, r.BlockNumber < row.BlockNumber) ∧
        row.BlockNumber ≤ (header.Number : Int) - (CONFIRMATIONS : Int)) := by
  rcases stepOnce_blocks f c s with hsame | ⟨header, last, id, hash, hh, hconf, hl, hstart, hb⟩
  · refine ⟨?_, Or.inl hsame⟩
    intro m m' hm hm'
    rw [lastProcessedBlock_congr _ _ hsame, hm] at hm'
    cases hm'
    exact le_refl _
  · obtain ⟨hmax, hwhich, hnone⟩ := lastProcessedBlock_spec f s.db last hl
    have hlast : -(2 : Int) ^ 63 ≤ last ∧ last < (2 : Int) ^ 63 := by
      rcases hwhich with ⟨_, h0⟩ | ⟨r, hr', hrl⟩
      · rw [h0]; norm_num
      · rw [← hrl]; exact hrows r hr'
    obtain ⟨h1, h2, _⟩ := hr.invariant
    have hb2 := scan_end_bounds last header.Number s.step hlast (hhead header hh) ⟨h1, h2⟩
      hconf hstart
    refine ⟨?_, Or.inr ⟨_, header, hh, hb, ?_, hb2.2⟩⟩
    · intro m m' hm hm'
      rw [hnone] at hm
      cases hm
      have hnew := (lastProcessedBlock_spec Faults.none _ m' hm').1
      rw [hb] at hnew
      have := hnew _ (List.mem_append_right _ (List.mem_singleton_self _))
      simp only at this
      exact le_of_lt (lt_of_lt_of_le hb2.1 this)
    · intro r hr'
      exact lt_of_le_of_lt (hmax r hr') hb2.1

theorem stepOnce_cursor_monotone_witness :
    (∀ r ∈ (NewScanner Scenario.tenBlocks).db.blocks,
      -(2 : Int) ^ 63 ≤ r.BlockNumber ∧ r.BlockNumber < (2 : Int) ^ 63) ∧
    ((∀ m m', lastProcessedBlock Faults.none (NewScanner Scenario.tenBlocks).db = .ok m →
      lastProcessedBlock Faults.none
        (stepOnce Faults.none Scenario.busyClient (NewScanner Scenario.tenBlocks)).1.db = .ok m' →
      m ≤ m') ∧
    ((stepOnce Faults.none Scenario.busyClient (NewScanner Scenario.tenBlocks)).1.db.blocks
        = (NewScanner Scenario.tenBlocks).db.blocks ∨
      ∃ row header, Scenario.busyClient.HeaderByNumber none = .ok header ∧
        (stepOnce Faults.none Scenario.busyClient (NewScanner Scenario.tenBlocks)).1.db.blocks
          = (NewScanner Scenario.tenBlocks).db.blocks ++ [row] ∧
        (∀ r ∈ (NewScanner Scenario.tenBlocks).db.blocks, r.BlockNumber < row.BlockNumber) ∧
        row.BlockNumber ≤ (header.Number : Int) - (CONFIRMATIONS : Int))) :=
  have hrows : ∀ r ∈ (NewScanner Scenario.tenBlocks).db.blocks,
      -(2 : Int) ^ 63 ≤ r.BlockNumber ∧ r.BlockNumber < (2 : Int) ^ 63 := by decide!
  ⟨hrows, stepOnce_cursor_monotone Faults.none Scenario.busyClient (NewScanner Scenario.tenBlocks)
    (Reachable.init _) hrows
    (fun header h => by
      simp only [Scenario.busyClient, Except.ok.injEq] at h
      rw [← h]
      norm_num)⟩

/-! ### Scanner tick: RPC errors and the scanned range -/

theorem stepOnce_head_error (f : Faults) (c : ChainClient) (s : Scanner) (e : Error)
    (h : c.HeaderByNumber none = .error e) : stepOnce f c s = (adjustStepOnFailure s, some e) := by
  unfold stepOnce
  rw [h]

theorem stepOnce_nothing_to_scan (f : Faults) (c : ChainClient) (s : Scanner) (header : Header)
    (last : Int) (hh : c.HeaderByNumber none = .ok header)
    (hl : lastProcessedBlock f s.db = .ok last)
    (hnone : header.Number % 2 ^ 64 ≤ CONFIRMATIONS ∨ rangeStart last > safeBlock header.Number) :
    stepOnce f c s = (s, none) := by
  unfold rangeStart safeBlock at hnone
  unfold stepOnce
  rw [hh]
  dsimp only
  split_ifs with hconf
  · rfl
  · rw [hl]
    dsimp only
    rcases hnone with h | h
    · exact absurd h hconf
    · rw [if_pos h]

theorem stepOnce_logs_error (f : Faults) (c : ChainClient) (s : Scanner) (header : Header)
    (last : Int) (e : Error) (hh : c.HeaderByNumber none = .ok header)
    (hconf : CONFIRMATIONS < header.Number % 2 ^ 64)
    (hl : lastProcessedBlock f s.db = .ok last)
    (hstart : rangeStart last ≤ safeBlock header.Number)
    (hlogs : c.FilterLogs (int64OfNat (rangeStart last))
      (int64OfNat (rangeEnd header.Number last s.step)) = .error e) :
    stepOnce f c s = (adjustStepOnFailure s, some e) := by
  unfold rangeEnd at hlogs
  unfold rangeStart safeBlock at hlogs hstart
  unfold stepOnce
  rw [hh]
  dsimp only
  rw [if_neg (Nat.not_le_of_lt hconf), hl]
  dsimp only
  rw [if_neg (Nat.not_lt_of_le hstart)]
  rw [hlogs]

theorem stepOnce_header_error (f : Faults) (c : ChainClient) (s : Scanner) (header : Header)
    (last : Int) (logs : List Log) (db1 : Store) (e : Error)
    (hh : c.HeaderByNumber none = .ok header)
    (hconf : CONFIRMATIONS < header.Number % 2 ^ 64)
    (hl : lastProcessedBlock f s.db = .ok last)
    (hstart : rangeStart last ≤ safeBlock header.Number)
    (hlogs : c.FilterLogs (int64OfNat (rangeStart last))
      (int64OfNat (rangeEnd header.Number last s.step)) = .ok logs)
    (hp : (if logs.length > 0 then persistLogs f s.db logs else (s.db, none)) = (db1, none))
    (hend : c.HeaderByNumber (some (int64OfNat (rangeEnd header.Number last s.step))) = .error e) :
    stepOnce f c s = (adjustStepOnSuccess { s with db := db1 }, none) := by
  unfold rangeEnd at hlogs hend
  unfold rangeStart safeBlock at hlogs hend hstart
  unfold stepOnce
  rw [hh]
  dsimp only
  rw [if_neg (Nat.not_le_of_lt hconf), hl]
  dsimp only
  rw [if_neg (Nat.not_lt_of_le hstart)]
  rw [hlogs]
  dsimp only
  rw [hp]
  dsimp only
  rw [hend]

theorem adjustStepOnFailure_reachable (s : Scanner) (hr : Reachable s) :
    (adjustStepOnFailure s).db = s.db ∧
    (adjustStepOnFailure s).step = max MIN_STEP (s.step / 2) ∧
    (adjustStepOnFailure s).successCount = 0 ∧ (adjustStepOnFailure s).failureCount = 0 := by
  obtain ⟨h1, h2, h3, h4, h5⟩ := hr.invariant
  unfold adjustStepOnFailure shrinkStep
  simp only [MIN_STEP, MAX_STEP, SUCCESS_THRESHOLD, FAILURE_THRESHOLD] at *
  refine ⟨?_, ?_, ?_, ?_⟩ <;> split_ifs <;> (simp_all; try omega)

theorem lastProcessedBlock_of_blocks (g : Faults) (db db' : Store) (h : db'.blocks = db.blocks) :
    lastProcessedBlock g db' = lastProcessedBlock g db := by
  unfold lastProcessedBlock
  rw [h]

/-- C21: in every state the scanner reaches, if the head fetch of a tick returns
an RPC error, or the tick reaches the logs fetch for `[start, end]` and that
fetch returns an RPC error, `stepOnce` returns that error and the scanner that
`adjustStepOnFailure` makes of the old one, exactly one failure notification:
the store (ProcessedBlock and OnChainEvent tables included) is unchanged and
`step` becomes `max(MIN_STEP, floor(step × 0.5))`. -/
theorem stepOnce_rpc_error (f : Faults) (c : ChainClient) (s : Scanner) (hr : Reachable s) :
    (∀ e, c.HeaderByNumber none = .error e →
      stepOnce f c s = (adjustStepOnFailure s, some e)) ∧
    (∀ header last e, c.HeaderByNumber none = .ok header →
      CONFIRMATIONS < header.Number % 2 ^ 64 →
      lastProcessedBlock f s.db = .ok last →
      rangeStart last ≤ safeBlock header.Number →
      c.FilterLogs (int64OfNat (rangeStart last))
        (int64OfNat (rangeEnd header.Number last s.step)) = .error e →
      stepOnce f c s = (adjustStepOnFailure s, some e)) ∧
    (adjustStepOnFailure s).db = s.db ∧
    (adjustStepOnFailure s).step = max MIN_STEP (s.step / 2) ∧
    (adjustStepOnFailure s).successCount = 0 ∧ (adjustStepOnFailure s).failureCount = 0 :=
  ⟨fun e h => stepOnce_head_error f c s e h,
   fun header last e hh hconf hl hstart hlogs =>
     stepOnce_logs_error f c s header last e hh hconf hl hstart hlogs,
   adjustStepOnFailure_reachable s hr⟩

theorem stepOnce_rpc_error_witness :
    Reachable (NewScanner Store.empty) ∧
    stepOnce Faults.none Scenario.downClient (NewScanner Store.empty)
      = (adjustStepOnFailure (NewScanner Store.empty), some "rpc: connection refused") ∧
    stepOnce Faults.none Scenario.logsDownClient (NewScanner Store.empty)
      = (adjustStepOnFailure (NewScanner Store.empty), some "rpc: query timeout") ∧
    (adjustStepOnFailure (NewScanner Store.empty)).db = (NewScanner Store.empty).db ∧
    (adjustStepOnFailure (NewScanner Store.empty)).step = 100 :=
  ⟨Reachable.init _,
   (stepOnce_rpc_error Faults.none Scenario.downClient (NewScanner Store.empty)
      (Reachable.init _)).1 _ rfl,
   (stepOnce_rpc_error Faults.none Scenario.logsDownClient (NewScanner Store.empty)
      (Reachable.init _)).2.1 { Number := 100, Hash := "0xhead" } 0 _ rfl (by decide) rfl
      (by decide) rfl,
   by decide, by decide⟩

/-- C22: when a tick has fetched the logs of `[start, end]` and persisted them
(leaving the store `db1`) and the header fetch for block `end` fails,
`stepOnce` returns no error and the scanner that `adjustStepOnSuccess` makes of
the old one over `db1`; no ProcessedBlock row is inserted, so
`lastProcessedBlock` returns what it returned before the tick and the next
tick starts at the same `start`. -/
theorem stepOnce_end_header_error (f : Faults) (c : ChainClient) (s : Scanner)
    (header : Header) (last : Int) (logs : List Log) (db1 : Store) (e : Error)
    (hh : c.HeaderByNumber none = .ok header)
    (hconf : CONFIRMATIONS < header.Number % 2 ^ 64)
    (hl : lastProcessedBlock f s.db = .ok last)
    (hstart : rangeStart last ≤ safeBlock header.Number)
    (hlogs : c.FilterLogs (int64OfNat (rangeStart last))
      (int64OfNat (rangeEnd header.Number last s.step)) = .ok logs)
    (hp : (if logs.length > 0 then persistLogs f s.db logs else (s.db, none)) = (db1, none))
    (hend : c.HeaderByNumber (some (int64OfNat (rangeEnd header.Number last s.step))) = .error e) :
    stepOnce f c s = (adjustStepOnSuccess { s with db := db1 }, none) ∧
    (stepOnce f c s).2 = none ∧
    (stepOnce f c s).1.db = db1 ∧
    (stepOnce f c s).1.db.blocks = s.db.blocks ∧
    (∀ g : Faults, lastProcessedBlock g (stepOnce f c s).1.db = lastProcessedBlock g s.db) := by
  have hres := stepOnce_header_error f c s header last logs db1 e hh hconf hl hstart hlogs hp hend
  have hblocks : db1.blocks = s.db.blocks := by
    have h1 : (if logs.length > 0 then persistLogs f s.db logs else (s.db, none)).1.blocks
        = s.db.blocks := by
      split_ifs
      · exact persistLogs_blocks f s.db logs
      · rfl
    rw [hp] at h1
    exact h1
  have hdb : (stepOnce f c s).1.db = db1 := by
    rw [hres]
    exact adjustStepOnSuccess_db _
  refine ⟨hres, by rw [hres], hdb, by rw [hdb, hblocks], fun g => ?_⟩
  exact lastProcessedBlock_of_blocks g s.db _ (by rw [hdb, hblocks])

theorem stepOnce_end_header_error_witness :
    stepOnce Faults.none Scenario.refetchClient (NewScanner Store.empty)
      = (adjustStepOnSuccess
          { NewScanner Store.empty with
            db := (persistLogs Faults.none Store.empty [Scenario.transferLog "0xaa" 0]).1 }, none) ∧
    (stepOnce Faults.none Scenario.refetchClient (NewScanner Store.empty)).2 = none ∧
    (stepOnce Faults.none Scenario.refetchClient (NewScanner Store.empty)).1.db
      = (persistLogs Faults.none Store.empty [Scenario.transferLog "0xaa" 0]).1 ∧
    (stepOnce Faults.none Scenario.refetchClient (NewScanner Store.empty)).1.db.blocks
      = (NewScanner Store.empty).db.blocks ∧
    (∀ g : Faults,
      lastProcessedBlock g (stepOnce Faults.none Scenario.refetchClient (NewScanner Store.empty)).1.db
        = lastProcessedBlock g (NewScanner Store.empty).db) :=
  stepOnce_end_header_error Faults.none Scenario.refetchClient (NewScanner Store.empty)
    { Number := 17, Hash := "0xhead" } 0 [Scenario.transferLog "0xaa" 0]
    (persistLogs Faults.none Store.empty [Scenario.transferLog "0xaa" 0]).1
    "rpc: header not available" rfl (by decide) rfl (by decide) (by decide!) (by decide!) rfl

theorem scan_range_arith (head : Nat) (last : Int) (step : Nat)
    (hhead : CONFIRMATIONS < head ∧ head < 2 ^ 64)
    (hlast : 0 ≤ last ∧ last < (2 : Int) ^ 63)
    (hstep : MIN_STEP ≤ step ∧ step ≤ MAX_STEP) :
    (safeBlock head : Int) = (head : Int) - (CONFIRMATIONS : Int) ∧ 1 ≤ safeBlock head ∧
    (rangeStart last : Int) = last + 1 ∧ 1 ≤ rangeStart last ∧
    (rangeStart last + step + (2 ^ 64 - 1)) % 2 ^ 64 = rangeStart last + step - 1 ∧
    rangeEnd head last step = min (rangeStart last + step - 1) (safeBlock head) ∧
    (rangeStart last ≤ safeBlock head →
      rangeStart last ≤ rangeEnd head last step ∧ rangeEnd head last step ≤ safeBlock head ∧
      rangeEnd head last step - rangeStart last + 1 ≤ step) := by
  unfold rangeEnd rangeStart safeBlock uint64OfInt minUint64
  simp only [MIN_STEP, MAX_STEP, CONFIRMATIONS] at *
  norm_num at *
  refine ⟨by omega, by omega, by omega, by omega, by omega, ?_, ?_⟩
  · split_ifs <;> omega
  · intro h
    split_ifs <;> omega

theorem scan_range_int64 (head : Nat) (last : Int) (step : Nat)
    (hhead : CONFIRMATIONS < head ∧ head < 2 ^ 63)
    (hlast : 0 ≤ last ∧ last < (2 : Int) ^ 63)
    (hscan : rangeStart last ≤ safeBlock head) :
    int64OfNat (rangeStart last) = (rangeStart last : Int) ∧
    int64OfNat (rangeEnd head last step) = (rangeEnd head last step : Int) := by
  unfold rangeEnd rangeStart safeBlock uint64OfInt minUint64 int64OfNat at *
  simp only [CONFIRMATIONS] at *
  norm_num at *
  constructor <;> split_ifs <;> omega

/-- C23: for every `uint64` head above `CONFIRMATIONS`, every non-negative
`int64` last processed block and every step in `[MIN_STEP, MAX_STEP]`, the
range of `stepOnce` is computed without underflow or wrap-around:
`safe = head − CONFIRMATIONS ≥ 1`, `start = last + 1 ≥ 1`, the `uint64` sum
`start + step − 1` is the exact one, `end` is its minimum with `safe`, and
whenever a range is scanned (`start ≤ safe`) `start ≤ end ≤ safe` and
`end − start + 1 ≤ step`; for a head below `2^63` the `int64` bounds handed to
the log query are `start` and `end` themselves. A tick at this head, last
block and step scans nothing when `start > safe` and otherwise queries the
logs of exactly `[start, end]`. -/
theorem scan_range_well_formed (head : Nat) (last : Int) (step : Nat)
    (hhead : CONFIRMATIONS < head ∧ head < 2 ^ 64)
    (hlast : 0 ≤ last ∧ last < (2 : Int) ^ 63)
    (hstep : MIN_STEP ≤ step ∧ step ≤ MAX_STEP) :
    ((safeBlock head : Int) = (head : Int) - (CONFIRMATIONS : Int) ∧ 1 ≤ safeBlock head ∧
    (rangeStart last : Int) = last + 1 ∧ 1 ≤ rangeStart last ∧
    (rangeStart last + step + (2 ^ 64 - 1)) % 2 ^ 64 = rangeStart last + step - 1 ∧
    rangeEnd head last step = min (rangeStart last + step - 1) (safeBlock head) ∧
    (rangeStart last ≤ safeBlock head →
      rangeStart last ≤ rangeEnd head last step ∧ rangeEnd head last step ≤ safeBlock head ∧
      rangeEnd head last step - rangeStart last + 1 ≤ step)) ∧
    (head < 2 ^ 63 → rangeStart last ≤ safeBlock head →
      int64OfNat (rangeStart last) = (rangeStart last : Int) ∧
      int64OfNat (rangeEnd head last step) = (rangeEnd head last step : Int)) ∧
    (∀ (f : Faults) (c : ChainClient) (s : Scanner) (header : Header),
      c.HeaderByNumber none = .ok header → header.Number = head →
      lastProcessedBlock f s.db = .ok last → s.step = step →
      (rangeStart last > safeBlock head → stepOnce f c s = (s, none)) ∧
      (∀ e, rangeStart last ≤ safeBlock head →
        c.FilterLogs (int64OfNat (rangeStart last)) (int64OfNat (rangeEnd head last step))
          = .error e →
        stepOnce f c s = (adjustStepOnFailure s, some e))) := by
  refine ⟨scan_range_arith head last step hhead hlast hstep, ?_, ?_⟩
  · intro h63 hscan
    exact scan_range_int64 head last step ⟨hhead.1, h63⟩ hlast hscan
  · intro f c s header hh hnum hl hs
    subst hnum
    subst hs
    have hmod : header.Number % 2 ^ 64 = header.Number := Nat.mod_eq_of_lt hhead.2
    refine ⟨fun h => stepOnce_nothing_to_scan f c s header last hh hl (Or.inr h), ?_⟩
    intro e hscan hlogs
    exact stepOnce_logs_error f c s header last e hh (by rw [hmod]; exact hhead.1) hl hscan hlogs

theorem scan_range_well_formed_witness :
    (CONFIRMATIONS < 100 ∧ 100 < 2 ^ 64) ∧ ((0 : Int) ≤ 10 ∧ (10 : Int) < (2 : Int) ^ 63) ∧
    (MIN_STEP ≤ 200 ∧ 200 ≤ MAX_STEP) ∧
    (safeBlock 100, rangeStart 10, rangeEnd 100 10 200) = (88, 11, 88) ∧
    (((safeBlock 100 : Int) = ((100 : Nat) : Int) - (CONFIRMATIONS : Int) ∧ 1 ≤ safeBlock 100 ∧
    (rangeStart 10 : Int) = 10 + 1 ∧ 1 ≤ rangeStart 10 ∧
    (rangeStart 10 + 200 + (2 ^ 64 - 1)) % 2 ^ 64 = rangeStart 10 + 200 - 1 ∧
    rangeEnd 100 10 200 = min (rangeStart 10 + 200 - 1) (safeBlock 100) ∧
    (rangeStart 10 ≤ safeBlock 100 →
      rangeStart 10 ≤ rangeEnd 100 10 200 ∧ rangeEnd 100 10 200 ≤ safeBlock 100 ∧
      rangeEnd 100 10 200 - rangeStart 10 + 1 ≤ 200)) ∧
    (100 < 2 ^ 63 → rangeStart 10 ≤ safeBlock 100 →
      int64OfNat (rangeStart 10) = (rangeStart 10 : Int) ∧
      int64OfNat (rangeEnd 100 10 200) = (rangeEnd 100 10 200 : Int)) ∧
    (∀ (f : Faults) (c : ChainClient) (s : Scanner) (header : Header),
      c.HeaderByNumber none = .ok header → header.Number = 100 →
      lastProcessedBlock f s.db = .ok 10 → s.step = 200 →
      (rangeStart 10 > safeBlock 100 → stepOnce f c s = (s, none)) ∧
      (∀ e, rangeStart 10 ≤ safeBlock 100 →
        c.FilterLogs (int64OfNat (rangeStart 10)) (int64OfNat (rangeEnd 100 10 200))
          = .error e →
        stepOnce f c s = (adjustStepOnFailure s, some e)))) :=
  ⟨by decide, by decide, by decide, by decide,
   scan_range_well_formed 100 10 200 (by decide) (by decide) (by decide)⟩

/-! ### Rollback followed by a processor pass -/

theorem findDuplicate_some_of_exists (db : Store) (txHash toAddress : String)
    (h : ∃ d ∈ db.deposits, d.TxHash = txHash ∧ d.ToAddress = toAddress) :
    ∃ d, findDuplicate Faults.none db txHash toAddress = some d := by
  unfold findDuplicate
  simp only [Faults.none, Bool.false_eq_true, if_false]
  cases hfb : firstBy (fun d => d.ID)
      (fun d => d.TxHash == txHash && d.ToAddress == toAddress) db.deposits with
  | some d => exact ⟨d, rfl⟩
  | none =>
    obtain ⟨d, hd, h1, h2⟩ := h
    have := (firstBy_eq_none_iff _ _ _).1 hfb d hd
    simp [h1, h2] at this

theorem findPoolRow_exists (db : Store) (address : String) (ap : AddressPool)
    (h : findPoolRow Faults.none db address = some ap) :
    ∃ a ∈ db.pool, a.Address = address :=
  ⟨ap, (findPoolRow_some Faults.none db address ap h).1,
    (findPoolRow_some Faults.none db address ap h).2⟩

theorem processEvent_credited (db : Store) (ev : OnchainEvent) (h : Credited db ev) :
    (processEvent Faults.none db ev).1.deposits = db.deposits ∧
    (processEvent Faults.none db ev).1.pool = db.pool := by
  cases h1 : rereadPending Faults.none db ev.ID with
  | none => simp [processEvent, processEventTx, h1, Faults.none]
  | some e0 =>
    cases h2 : parseTransfer ev with
    | error e => simp [processEvent, processEventTx, h1, h2, markEventProcessedTx, Faults.none]
    | ok r =>
      obtain ⟨fromAddr, toAddr, value⟩ := r
      cases h3 : findPoolRow Faults.none db (lowerHex toAddr.val) with
      | none => simp [processEvent, processEventTx, h1, h2, h3, markEventProcessedTx, Faults.none]
      | some ap =>
        have hex := h fromAddr toAddr value h2 (findPoolRow_exists db _ ap h3)
        obtain ⟨d, h4⟩ := findDuplicate_some_of_exists db ev.TxHash (lowerHex toAddr.val) hex
        simp [processEvent, processEventTx, h1, h2, h3, h4, markEventProcessedTx, Faults.none]

theorem Credited_congr (db db' : Store) (ev ev' : OnchainEvent)
    (hd : db'.deposits = db.deposits) (hp : db'.pool = db.pool)
    (ht : ev'.Topics = ev.Topics) (hdata : ev'.Data = ev.Data) (htx : ev'.TxHash = ev.TxHash)
    (h : Credited db ev) : Credited db' ev' := by
  have hparse : parseTransfer ev' = parseTransfer ev := by
    unfold parseTransfer
    rw [ht, hdata]
  intro fromAddr toAddr value hp' hpool
  rw [hparse] at hp'
  rw [hp] at hpool
  rw [hd, htx]
  exact h fromAddr toAddr value hp' hpool

theorem fetchPendingEvents_mem (db : Store) (limit : Nat) (ev : OnchainEvent)
    (h : ev ∈ fetchPendingEvents db limit) : ev ∈ db.events ∧ ev.Processed = false := by
  unfold fetchPendingEvents at h
  have h1 := List.mem_of_mem_take h
  rw [(List.perm_insertionSort _ _).mem_iff, List.mem_filter] at h1
  refine ⟨h1.1, ?_⟩
  have := h1.2
  simp only [Bool.and_eq_true, Bool.not_eq_true'] at this
  exact this.2

/-- Running `processEvent` over credited events changes neither the Deposit
table nor the pool, and only marks events processed. -/
theorem foldl_processEvent_credited (db0 : Store) (evs : List OnchainEvent) (db : Store)
    (hd : db.deposits = db0.deposits) (hp : db.pool = db0.pool)
    (hev : ∀ ev ∈ evs, Credited db0 ev) :
    (evs.foldl (fun db ev => (processEvent Faults.none db ev).1) db).deposits = db0.deposits ∧
    (evs.foldl (fun db ev => (processEvent Faults.none db ev).1) db).pool = db0.pool := by
  induction evs generalizing db with
  | nil => exact ⟨hd, hp⟩
  | cons ev evs ih =>
    simp only [List.foldl_cons]
    have hc : Credited db ev :=
      Credited_congr db0 db ev ev hd hp rfl rfl rfl (hev ev (List.mem_cons_self _ _))
    obtain ⟨h1, h2⟩ := processEvent_credited db ev hc
    exact ih _ (h1.trans hd) (h2.trans hp) (fun e he => hev e (List.mem_cons_of_mem _ he))

theorem processorPass_credited (db0 db : Store) (limit : Nat)
    (hd : db.deposits = db0.deposits) (hp : db.pool = db0.pool)
    (hev : ∀ ev ∈ db.events, ev.Processed = false → Credited db0 ev) :
    (processorPass Faults.none limit db).deposits = db0.deposits ∧
    (processorPass Faults.none limit db).pool = db0.pool ∧
    (∀ ev ∈ (processorPass Faults.none limit db).events, ev.Processed = false →
      Credited db0 ev) := by
  have hfetch : ∀ ev ∈ fetchPendingEvents db limit, Credited db0 ev := by
    intro ev hmem
    obtain ⟨h1, h2⟩ := fetchPendingEvents_mem db limit ev hmem
    exact hev ev h1 h2
  have hfold := foldl_processEvent_credited db0 (fetchPendingEvents db limit) db hd hp hfetch
  have hevents : (processorPass Faults.none limit db).events
      = db.events.map (fun e => if (fetchPendingEvents db limit).any (fun ev => e.ID == ev.ID)
          then { e with Processed := true } else e) := by
    simp only [processorPass, Faults.none, Bool.false_eq_true, if_false]
    rw [foldl_processEvent_events, foldl_markProcessed]
  refine ⟨?_, ?_, ?_⟩
  · simpa [processorPass, Faults.none] using hfold.1
  · simpa [processorPass, Faults.none] using hfold.2
  · intro ev hmem hpend
    rw [hevents, List.mem_map] at hmem
    obtain ⟨e, he, rfl⟩ := hmem
    by_cases hany : (fetchPendingEvents db limit).any (fun ev => e.ID == ev.ID) = true
    · rw [if_pos hany] at hpend
      cases hpend
    · rw [if_neg hany] at hpend ⊢
      exact hev e he hpend

theorem iterate_processorPass_credited (db0 : Store) (limit n : Nat) (db : Store)
    (hd : db.deposits = db0.deposits) (hp : db.pool = db0.pool)
    (hev : ∀ ev ∈ db.events, ev.Processed = false → Credited db0 ev) :
    ((processorPass Faults.none limit)^[n] db).deposits = db0.deposits := by
  induction n generalizing db with
  | zero => exact hd
  | succ n ih =>
    rw [Function.iterate_succ_apply]
    obtain ⟨h1, h2, h3⟩ := processorPass_credited db0 db limit hd hp hev
    exact ih _ h1 h2 h3

theorem rollbackToBlock_reopened (db : Store) (pivot : Int)
    (hall : ∀ e ∈ db.events, e.Processed = true) :
    (rollbackToBlock Faults.none db pivot).1.deposits = db.deposits ∧
    (rollbackToBlock Faults.none db pivot).1.pool = db.pool ∧
    (∀ ev ∈ (rollbackToBlock Faults.none db pivot).1.events, ev.Processed = false →
      ∃ e ∈ db.events, e.Chain = CHAIN ∧ e.BlockNumber > pivot ∧
        ev = { e with Processed := false }) := by
  unfold rollbackToBlock
  simp only [Faults.none, Bool.false_eq_true, if_false]
  refine ⟨trivial, trivial, ?_⟩
  intro ev hmem hpend
  rw [List.mem_map] at hmem
  obtain ⟨e, he, rfl⟩ := hmem
  by_cases hk : (e.Chain == CHAIN && decide (e.BlockNumber > pivot)) = true
  · simp only [Bool.and_eq_true, beq_iff_eq, decide_eq_true_eq] at hk
    refine ⟨e, he, hk.1, hk.2, ?_⟩
    simp [hk.1, hk.2]
  · simp only [hk, Bool.false_eq_true, if_false] at hpend
    rw [hall e he] at hpend
    cases hpend

theorem Credited_of_check (db : Store) (e : OnchainEvent)
    (h : (parseTransfer e).toOption.all (fun r =>
      db.deposits.any (fun d => d.TxHash == e.TxHash && d.ToAddress == lowerHex r.2.1.val))
        = true) : Credited db e := by
  intro fromAddr toAddr value hparse _
  rw [hparse] at h
  simp only [Except.toOption, Option.all_some, List.any_eq_true, Bool.and_eq_true,
    beq_iff_eq] at h
  obtain ⟨d, hd, h1, h2⟩ := h
  exact ⟨d, hd, h1, h2⟩

/-- C24, as stated, fails: in `creditedLate` every event is processed, the
Transfer of `0xaa` in block 5 having been skipped while its destination was
not yet in the pool. After `rollbackToBlock 3` a processor pass over the
re-opened event inserts a Deposit that was not there before the rollback. -/
theorem rollback_replay_credits_skipped_event :
    (∀ e ∈ Scenario.creditedLate.events, e.Processed = true) ∧
    Scenario.creditedLate.deposits = [] ∧
    (rollbackToBlock Faults.none Scenario.creditedLate 3).2 = none ∧
    (processorPass Faults.none BATCH_PROCESS_SIZE
      (rollbackToBlock Faults.none Scenario.creditedLate 3).1).deposits.map
        (fun d => (d.TxHash, d.ToAddress, d.Amount)) = [("0xaa", Scenario.addressText 2, "7")] := by
  decide!

/-- C24, amended: for every store in which all events are processed and every
event of this chain above the pivot is credited (if it decodes to a Transfer
to a pool address, a Deposit with its tx_hash and destination exists),
`rollbackToBlock pivot` followed by any number of processor passes leaves the
Deposit table exactly as it was before the rollback: nothing is removed and
nothing is duplicated; and when the re-opened events fit in the batch, one
pass processes all of them again. -/
theorem rollback_replay_keeps_deposits (db : Store) (pivot : Int) (limit n : Nat)
    (hall : ∀ e ∈ db.events, e.Processed = true)
    (hcred : ∀ e ∈ db.events, e.Chain = CHAIN → e.BlockNumber > pivot → Credited db e) :
    ((processorPass Faults.none limit)^[n] (rollbackToBlock Faults.none db pivot).1).deposits
      = db.deposits ∧
    (((rollbackToBlock Faults.none db pivot).1.events.filter
        (fun e => e.Chain == PROCESS_CHAIN && !e.Processed)).length ≤ limit →
      fetchPendingEvents
        (processorPass Faults.none limit (rollbackToBlock Faults.none db pivot).1) limit = []) := by
  obtain ⟨hd, hp, hre⟩ := rollbackToBlock_reopened db pivot hall
  refine ⟨?_, fun hfit => fetchPendingEvents_after_pass _ limit hfit⟩
  apply iterate_processorPass_credited db limit n _ hd hp
  intro ev hmem hpend
  obtain ⟨e, he, hc, hb, rfl⟩ := hre ev hmem hpend
  exact Credited_congr db db e _ rfl rfl rfl rfl rfl (hcred e he hc hb)

theorem rollback_replay_keeps_deposits_witness :
    (∀ e ∈ Scenario.creditedStore.events, e.Processed = true) ∧
    Scenario.creditedStore.deposits.map (fun d => (d.TxHash, d.ToAddress))
      = [("0xaa", Scenario.addressText 2)] ∧
    (((processorPass Faults.none BATCH_PROCESS_SIZE)^[2]
        (rollbackToBlock Faults.none Scenario.creditedStore 3).1).deposits
      = Scenario.creditedStore.deposits ∧
    (((rollbackToBlock Faults.none Scenario.creditedStore 3).1.events.filter
        (fun e => e.Chain == PROCESS_CHAIN && !e.Processed)).length ≤ BATCH_PROCESS_SIZE →
      fetchPendingEvents
        (processorPass Faults.none BATCH_PROCESS_SIZE
          (rollbackToBlock Faults.none Scenario.creditedStore 3).1) BATCH_PROCESS_SIZE = [])) :=
  have key : ∀ e ∈ Scenario.creditedStore.events,
      (parseTransfer e).toOption.all (fun r =>
        Scenario.creditedStore.deposits.any (fun d =>
          d.TxHash == e.TxHash && d.ToAddress == lowerHex r.2.1.val)) = true := by decide!
  ⟨by decide!, by decide!,
   rollback_replay_keeps_deposits Scenario.creditedStore 3 BATCH_PROCESS_SIZE 2 (by decide!)
    (fun e he _ _ => Credited_of_check Scenario.creditedStore e (key e he))⟩

end CryptoCustody
